import Mathlib

/-!
Verification of the receipt-processing core

A shallow embedding of the in-memory data-processing pipeline of the
receipt application: the search engine (`src/algorithms/search_algorithms.py`),
the sort engine (`src/algorithms/sort_algorithms.py`) and the aggregation
engine (`src/algorithms/aggregation_algorithms.py`), together with theorems
settling the behavioural claims made about them.

Modelling conventions:
* Python strings are modelled as `List Char` (`Str`); `str.lower()` is
  `Char.toLower` mapped over the characters.
* Python numbers (ints and floats) are modelled as `ℚ` with exact
  arithmetic; `round(x, n)` is modelled by `pyRound`, round-half-to-even
  at `n` decimal digits, which is Python's rounding rule on exact values.
* `str(x)` on numbers is modelled by `ratRepr` (a decimal/fraction
  rendering built from `Nat.digits`); its exact spelling is a model of
  CPython's float formatting, but the properties used in proofs (`"0"`
  names only the number 0) hold of the real formatter as well.
* `datetime` values are modelled by `DateTime` (year/month/day) ordered
  lexicographically, which matches `datetime` comparison.
* Dynamic attribute access (`getattr`/`hasattr`) is modelled by `getField`,
  returning `none` exactly when the attribute does not exist on the
  `Receipt` model; a present-but-NULL column is `some PyVal.none`.
* The SQLAlchemy session is modelled as the list of all stored receipts in
  id/scan order; `query(Receipt).all()` returns that list.
-/

set_option linter.unusedSectionVars false

namespace ReceiptApp

/-- Python strings, modelled as their list of characters. -/
abbrev Str := List Char

/-- `str.lower()` (ASCII case folding, as `Char.toLower` implements). -/
def strLower (s : Str) : Str := s.map Char.toLower

/-- The digit character of `d` (`0 ≤ d ≤ 9` in every use). -/
def dChar (d : ℕ) : Char := Char.ofNat (48 + d)

/-- Base-10 digits, least significant first, by fuel-bounded structural
recursion (kernel-computable; shown below to agree with `Nat.digits`). -/
def natDigitsAux : ℕ → ℕ → List ℕ
  | 0, _ => []
  | _ + 1, 0 => []
  | fuel + 1, n + 1 => ((n + 1) % 10) :: natDigitsAux fuel ((n + 1) / 10)

/-- Base-10 digits of `n`, least significant first. -/
def natDigits (n : ℕ) : List ℕ := natDigitsAux n n

/-- Decimal rendering of a natural number: the model of Python's `str(n)`. -/
def natRepr (n : ℕ) : Str := if n = 0 then ['0'] else ((natDigits n).reverse.map dChar)

/-- Reading a decimal digit string back, the model of Python's `int(s)`
(on strings that are digit runs, the only inputs the code gives it). -/
def parseNat (s : Str) : ℕ := Nat.ofDigits 10 ((s.map (fun c => c.toNat - 48)).reverse)

/-- Zero-padding to width 2: the model of the format spec `{m:02d}`. -/
def pad2 (n : ℕ) : Str := if n < 10 then '0' :: natRepr n else natRepr n

/-- Splitting on one separator character: the model of `s.split('-')`. -/
def splitOnChar (sep : Char) : Str → List Str
  | [] => [[]]
  | c :: rest =>
    let r := splitOnChar sep rest
    if c = sep then [] :: r
    else match r with
      | [] => [[c]]
      | h :: t => (c :: h) :: t

/-- Does `s` start with `p`? (auxiliary for substring containment). -/
def strStarts : Str → Str → Bool
  | [], _ => true
  | _ :: _, [] => false
  | p :: ps, c :: cs => p = c && strStarts ps cs

/-- Substring containment `needle in hay` (Python `in` on strings). -/
def containsSub (needle hay : Str) : Bool :=
  match hay with
  | [] => strStarts needle []
  | _ :: rest => strStarts needle hay || containsSub needle rest

/-- Round-half-to-even to an integer, Python's `round` rule on exact values. -/
def roundHalfEven (x : ℚ) : ℤ :=
  let f : ℤ := ⌊x⌋
  let r : ℚ := x - f
  if r < 1/2 then f
  else if 1/2 < r then f + 1
  else if f % 2 = 0 then f else f + 1

/-- Python's `round(x, nd)` on exact rational values. -/
def pyRound (x : ℚ) (nd : ℕ) : ℚ := (roundHalfEven (x * 10 ^ nd) : ℚ) / 10 ^ nd

/-- A `datetime` value (the fields the core reads: year, month, day). -/
structure DateTime where
  year : ℕ
  month : ℕ
  day : ℕ
deriving DecidableEq

/-- The comparison key of a `DateTime`: lexicographic on (year, month, day),
which is how Python compares `datetime` values. -/
def DateTime.key (d : DateTime) : ℕ ×ₗ (ℕ ×ₗ ℕ) := toLex (d.year, toLex (d.month, d.day))

theorem DateTime.key_injective : Function.Injective DateTime.key := by
  intro a b h
  cases a; cases b
  simp only [DateTime.key, toLex, Equiv.refl_apply, Prod.mk.injEq] at h
  simp_all

instance : LinearOrder DateTime := LinearOrder.lift' DateTime.key DateTime.key_injective

/-- `datetime.min` (year 1, month 1, day 1). -/
def DateTime.min : DateTime := ⟨1, 1, 1⟩

/-- A dynamically typed Python value as stored in a `Receipt` attribute. -/
inductive PyVal where
  | none
  | str (s : Str)
  | num (q : ℚ)
  | date (d : DateTime)
deriving DecidableEq

/-- Python truthiness: `None`, `0` and `""` are falsy; a `datetime` is truthy. -/
def truthy : PyVal → Bool
  | .none => false
  | .str s => s ≠ []
  | .num q => q ≠ 0
  | .date _ => true

/-- Rendering of a rational, the model of `str()` on a Python number. -/
def ratRepr (q : ℚ) : Str :=
  (if q < 0 then ['-'] else []) ++ natRepr q.num.natAbs ++
    (if q.den = 1 then [] else '/' :: natRepr q.den)

/-- Rendering of a date, the model of `str()` on a `datetime`. -/
def dateRepr (d : DateTime) : Str :=
  natRepr d.year ++ '-' :: pad2 d.month ++ '-' :: pad2 d.day

/-- Python `str(v)` over the dynamic values the engine handles. -/
def pyStr : PyVal → Str
  | .none => ['N', 'o', 'n', 'e']
  | .str s => s
  | .num q => ratRepr q
  | .date d => dateRepr d

/-- A receipt record: the columns of the `receipts` table
(`src/models/database.py`). Nullable columns are `Option`s. -/
structure Receipt where
  id : ℤ
  filename : Str
  file_type : Str
  upload_date : DateTime
  vendor : Option Str
  transaction_date : Option DateTime
  amount : Option ℚ
  category : Option Str
  raw_text : Option Str
  confidence_score : Option ℚ
  processing_status : Str
  error_message : Option Str
deriving DecidableEq

instance : Inhabited Receipt :=
  ⟨⟨0, [], [], DateTime.min, Option.none, Option.none, Option.none, Option.none,
    Option.none, Option.none, [], Option.none⟩⟩

/-- An optional column as a dynamic value (`NULL` ↦ `None`). -/
def optVal (f : Str → PyVal) : Option Str → PyVal
  | Option.none => PyVal.none
  | Option.some s => f s

/-- `getattr(receipt, field)` guarded by `hasattr`: `none` when the model has
no such attribute, otherwise the (possibly `None`) column value. -/
def getField (r : Receipt) (field : Str) : Option PyVal :=
  if field = "id".toList then some (.num r.id)
  else if field = "filename".toList then some (.str r.filename)
  else if field = "file_type".toList then some (.str r.file_type)
  else if field = "upload_date".toList then some (.date r.upload_date)
  else if field = "vendor".toList then some (optVal .str r.vendor)
  else if field = "transaction_date".toList then
    some (match r.transaction_date with | Option.none => .none | Option.some d => .date d)
  else if field = "amount".toList then
    some (match r.amount with | Option.none => .none | Option.some q => .num q)
  else if field = "category".toList then some (optVal .str r.category)
  else if field = "raw_text".toList then some (optVal .str r.raw_text)
  else if field = "confidence_score".toList then
    some (match r.confidence_score with | Option.none => .none | Option.some q => .num q)
  else if field = "processing_status".toList then some (.str r.processing_status)
  else if field = "error_message".toList then some (optVal .str r.error_message)
  else Option.none

/-! ## Sort engine (`src/algorithms/sort_algorithms.py`)

The three algorithms take a collection, a key extractor and a direction
flag.  Keys live in an arbitrary linear order `κ`, matching Python's use of
`<=`/`>=` on the extracted keys.  The in-place array mutation of the Python
quicksort is modelled by passing the list through `swapL` updates; `elemAt`
is `arr[i]` (every access in the algorithms is in bounds, which the
correctness proofs track explicitly). -/

section SortEngine

variable {α : Type} {κ : Type} [Inhabited α] [LinearOrder κ]

/-- `arr[i]` (in-bounds in every reachable use). -/
def elemAt (l : List α) (i : ℕ) : α := l.getD i default

/-- `arr[i], arr[j] = arr[j], arr[i]`. -/
def swapL (l : List α) (i j : ℕ) : List α :=
  match l[i]?, l[j]? with
  | some x, some y => (l.set i y).set j x
  | _, _ => l

/-- The comparison the sort engine uses in direction `reverse`:
`x <= y` ascending, `x >= y` descending. -/
def keyLe (reverse : Bool) (x y : κ) : Prop := if reverse then y ≤ x else x ≤ y

instance keyLe.decidable (reverse : Bool) (x y : κ) : Decidable (keyLe reverse x y) := by
  unfold keyLe; split <;> infer_instance

theorem keyLe_total (reverse : Bool) (x y : κ) : keyLe reverse x y ∨ keyLe reverse y x := by
  unfold keyLe; split <;> exact le_total _ _

theorem keyLe_trans {reverse : Bool} {x y z : κ} (h1 : keyLe reverse x y)
    (h2 : keyLe reverse y z) : keyLe reverse x z := by
  unfold keyLe at *
  split at h1 <;> simp_all
  · exact le_trans h2 h1
  · exact le_trans h1 h2

theorem keyLe_of_not_keyLe {reverse : Bool} {x y : κ} (h : ¬ keyLe reverse x y) :
    keyLe reverse y x := (keyLe_total reverse x y).resolve_left h

/-- The partition loop of `SortAlgorithms._partition`: `j` scans
`range(low, high)`, `s` is `i + 1` (the slot the next small element goes
to); on `should_swap` the element is swapped into slot `s`. -/
def partition_loop (key_func : α → κ) (reverse : Bool) (pivot : κ)
    (arr : List α) (s j high : ℕ) : List α × ℕ :=
  if j < high then
    if keyLe reverse (key_func (elemAt arr j)) pivot then
      partition_loop key_func reverse pivot (swapL arr s j) (s + 1) (j + 1) high
    else
      partition_loop key_func reverse pivot arr s (j + 1) high
  else (arr, s)
termination_by high - j

/-- `SortAlgorithms._partition`: rightmost element as pivot, Lomuto-style
scan, final swap placing the pivot at the returned index. -/
def partition (key_func : α → κ) (reverse : Bool) (arr : List α)
    (low high : ℕ) : List α × ℕ :=
  let pivot := key_func (elemAt arr high)
  let res := partition_loop key_func reverse pivot arr low low high
  (swapL res.1 res.2 high, res.2)

theorem partition_loop_s_bounds (key_func : α → κ) (reverse : Bool) (pivot : κ) :
    ∀ (n j s : ℕ) (arr : List α) (high : ℕ), high ≤ j + n → s ≤ j → j ≤ high →
      s ≤ (partition_loop key_func reverse pivot arr s j high).2 ∧
        (partition_loop key_func reverse pivot arr s j high).2 ≤ high := by
  intro n
  induction n with
  | zero =>
    intro j s arr high h1 h2 h3
    rw [partition_loop]
    have hj : ¬ j < high := by omega
    simp only [hj, if_false]
    omega
  | succ n ih =>
    intro j s arr high h1 h2 h3
    rw [partition_loop]
    by_cases hj : j < high
    · simp only [hj, if_true]
      by_cases hsw : keyLe reverse (key_func (elemAt arr j)) pivot
      · simp only [hsw, if_true]
        have := ih (j + 1) (s + 1) (swapL arr s j) high (by omega) (by omega) (by omega)
        omega
      · simp only [hsw, if_false]
        have := ih (j + 1) s arr high (by omega) (by omega) (by omega)
        omega
    · simp only [hj, if_false]
      omega

theorem partition_bounds (key_func : α → κ) (reverse : Bool) (arr : List α)
    (low high : ℕ) (h : low ≤ high) :
    low ≤ (partition key_func reverse arr low high).2 ∧
      (partition key_func reverse arr low high).2 ≤ high := by
  have := partition_loop_s_bounds key_func reverse (key_func (elemAt arr high))
    (high - low) low low arr high (by omega) le_rfl h
  simpa [partition] using this

/-- `SortAlgorithms._quicksort_recursive`: partition, then recurse on the
two sides of the pivot.  `p - 1` is natural-number truncation, which agrees
with the Python code: the only case where Python's `p - 1` is negative is
`p = 0 = low`, and there both the Python call `(0, -1)` and the model's
`(0, 0)` fall in the `low < high` failure branch and return the array. -/
def quicksort_recursive (key_func : α → κ) (reverse : Bool)
    (arr : List α) (low high : ℕ) : List α :=
  if low < high then
    quicksort_recursive key_func reverse
      (quicksort_recursive key_func reverse (partition key_func reverse arr low high).1
        low ((partition key_func reverse arr low high).2 - 1))
      ((partition key_func reverse arr low high).2 + 1) high
  else arr
termination_by high + 1 - low
decreasing_by
  · have := partition_bounds key_func reverse arr low high (by omega)
    omega
  · have := partition_bounds key_func reverse arr low high (by omega)
    omega

/-- `SortAlgorithms.quicksort`: sorts a copy (`receipts.copy()`) of the
input over the full index range. -/
def quicksort (receipts : List α) (key_func : α → κ) (reverse : Bool) : List α :=
  quicksort_recursive key_func reverse receipts 0 (receipts.length - 1)

/-- `SortAlgorithms._merge`: take from the left while `left <= right`
(ascending; inverted when descending), then append the remainders. -/
def merge (key_func : α → κ) (reverse : Bool) : List α → List α → List α
  | [], right => right
  | a :: left, [] => a :: left
  | a :: left, b :: right =>
    if keyLe reverse (key_func a) (key_func b) then
      a :: merge key_func reverse left (b :: right)
    else
      b :: merge key_func reverse (a :: left) right
termination_by l r => l.length + r.length

/-- `SortAlgorithms._mergesort_recursive`: split at `len // 2`, sort the
halves, merge. -/
def mergesort_recursive (key_func : α → κ) (reverse : Bool) (arr : List α) : List α :=
  if h : arr.length ≤ 1 then arr
  else
    merge key_func reverse
      (mergesort_recursive key_func reverse (arr.take (arr.length / 2)))
      (mergesort_recursive key_func reverse (arr.drop (arr.length / 2)))
termination_by arr.length
decreasing_by
  · simp only [List.length_take]
    omega
  · simp only [List.length_drop]
    omega

/-- `SortAlgorithms.mergesort` (on a copy of the input). -/
def mergesort (receipts : List α) (key_func : α → κ) (reverse : Bool) : List α :=
  mergesort_recursive key_func reverse receipts

/-- `SortAlgorithms.timsort` calls Python's builtin `sorted(receipts,
key=key_func, reverse=reverse)`.  `sorted` is a stable comparison sort; a
stable sort's output is uniquely determined by the (total, transitive)
comparison, so the builtin is modelled by insertion sort under the same
comparison `keyLe`. -/
def timsort (receipts : List α) (key_func : α → κ) (reverse : Bool) : List α :=
  receipts.insertionSort (fun a b => keyLe reverse (key_func a) (key_func b))

/-- `SortAlgorithms.sort_by_amount` (`None` amounts sort as `0`). -/
def amount_key (r : Receipt) : ℚ := r.amount.getD 0

def sort_by_amount (receipts : List Receipt) (reverse : Bool) (algorithm : Str) : List Receipt :=
  if algorithm = "quicksort".toList then quicksort receipts amount_key reverse
  else if algorithm = "mergesort".toList then mergesort receipts amount_key reverse
  else timsort receipts amount_key reverse

/-- The key of `SortAlgorithms.sort_by_date` (missing dates sort as
`datetime.min`); the callers dispatch only the two date fields. -/
def date_key (field : Str) (r : Receipt) : DateTime :=
  if field = "upload_date".toList then r.upload_date
  else r.transaction_date.getD DateTime.min

def sort_by_date (receipts : List Receipt) (field : Str) (reverse : Bool)
    (algorithm : Str) : List Receipt :=
  if algorithm = "quicksort".toList then quicksort receipts (date_key field) reverse
  else if algorithm = "mergesort".toList then mergesort receipts (date_key field) reverse
  else timsort receipts (date_key field) reverse

/-- `SortAlgorithms.sort_by_vendor`: key `(r.vendor or "").lower()`. -/
def vendor_key (r : Receipt) : Str := strLower (r.vendor.getD [])

def sort_by_vendor (receipts : List Receipt) (reverse : Bool) (algorithm : Str) : List Receipt :=
  if algorithm = "quicksort".toList then quicksort receipts vendor_key reverse
  else if algorithm = "mergesort".toList then mergesort receipts vendor_key reverse
  else timsort receipts vendor_key reverse

/-- `SortAlgorithms.sort_by_category`: key `(r.category or "").lower()`. -/
def category_key (r : Receipt) : Str := strLower (r.category.getD [])

def sort_by_category (receipts : List Receipt) (reverse : Bool) (algorithm : Str) : List Receipt :=
  if algorithm = "quicksort".toList then quicksort receipts category_key reverse
  else if algorithm = "mergesort".toList then mergesort receipts category_key reverse
  else timsort receipts category_key reverse

/-- One entry of the `sort_criteria` list of `multi_level_sort`
(`{"field": ..., "reverse": ...}`, `reverse` defaulting to false). -/
structure SortCriterion where
  field : Str
  reverse : Bool
deriving DecidableEq

/-- `SortAlgorithms.multi_level_sort`: apply the single-field sorts (all
with the default algorithm, timsort) in reverse order of the criteria
list; unknown fields leave the list unchanged. -/
def multi_level_sort (receipts : List Receipt) (sort_criteria : List SortCriterion) :
    List Receipt :=
  sort_criteria.reverse.foldl (fun result c =>
    if c.field = "amount".toList then sort_by_amount result c.reverse "timsort".toList
    else if c.field = "transaction_date".toList ∨ c.field = "upload_date".toList then
      sort_by_date result c.field c.reverse "timsort".toList
    else if c.field = "vendor".toList then sort_by_vendor result c.reverse "timsort".toList
    else if c.field = "category".toList then sort_by_category result c.reverse "timsort".toList
    else result) receipts

/-- `SortAlgorithms.is_sorted`. -/
def is_sorted (receipts : List α) (key_func : α → κ) (reverse : Bool) : Bool :=
  (List.range receipts.length).all fun i =>
    i = 0 || decide (keyLe reverse (key_func (elemAt receipts (i - 1)))
      (key_func (elemAt receipts i)))

end SortEngine

/-! ## Correctness of the sort engine -/

section SortProofs

variable {α : Type} {κ : Type} [Inhabited α] [LinearOrder κ]

theorem elemAt_eq_getElem (l : List α) (k : ℕ) (h : k < l.length) :
    elemAt l k = l[k] := by
  simp [elemAt, List.getD_eq_getElem?_getD, List.getElem?_eq_getElem h]

theorem length_swapL (l : List α) (i j : ℕ) : (swapL l i j).length = l.length := by
  unfold swapL
  split <;> simp

theorem swapL_of_lt (l : List α) (i j : ℕ) (hi : i < l.length) (hj : j < l.length) :
    swapL l i j = (l.set i l[j]).set j l[i] := by
  unfold swapL
  rw [List.getElem?_eq_getElem hi, List.getElem?_eq_getElem hj]

theorem elemAt_swapL_right (l : List α) (i j : ℕ) (hi : i < l.length) (hj : j < l.length) :
    elemAt (swapL l i j) j = elemAt l i := by
  rw [swapL_of_lt l i j hi hj, elemAt_eq_getElem _ _ (by simpa using hj),
    elemAt_eq_getElem _ _ hi]
  rw [List.getElem_set_self (by simpa using hj)]

theorem elemAt_swapL_left (l : List α) (i j : ℕ) (hi : i < l.length) (hj : j < l.length) :
    elemAt (swapL l i j) i = elemAt l j := by
  rcases eq_or_ne i j with rfl | hne
  · exact elemAt_swapL_right l i i hi hj
  · rw [swapL_of_lt l i j hi hj, elemAt_eq_getElem _ _ (by simpa using hi),
      elemAt_eq_getElem _ _ hj]
    rw [List.getElem_set_of_ne (Ne.symm hne), List.getElem_set_self (by simpa using hi)]

theorem elemAt_swapL_other (l : List α) (i j k : ℕ) (hki : k ≠ i) (hkj : k ≠ j) :
    elemAt (swapL l i j) k = elemAt l k := by
  unfold swapL
  split
  · rename_i x y hx hy
    simp only [elemAt, List.getD_eq_getElem?_getD]
    rw [List.getElem?_set_ne (Ne.symm hkj), List.getElem?_set_ne (Ne.symm hki)]
  · rfl

theorem cons_set_perm : ∀ (xs : List α) (m : ℕ) (h : m < xs.length) (a : α),
    (xs.get ⟨m, h⟩ :: xs.set m a).Perm (a :: xs) := by
  intro xs
  induction xs with
  | nil => intro m h; simp at h
  | cons y ys ih =>
    intro m h a
    match m with
    | 0 => simpa using List.Perm.swap a y ys
    | Nat.succ m =>
      have hm : m < ys.length := by simpa using h
      refine List.Perm.trans (List.Perm.swap y _ _) ?_
      refine List.Perm.trans (List.Perm.cons y (ih m hm a)) ?_
      exact List.Perm.swap a y ys

theorem set_set_swap_perm : ∀ (l : List α) (i j : ℕ) (hi : i < l.length) (hj : j < l.length),
    ((l.set i l[j]).set j l[i]).Perm l := by
  intro l
  induction l with
  | nil => intro i j hi _; simp at hi
  | cons x xs ih =>
    intro i j hi hj
    match i, j with
    | 0, 0 => simp
    | 0, Nat.succ n =>
      have hn : n < xs.length := by simpa using hj
      simpa using cons_set_perm xs n hn x
    | Nat.succ m, 0 =>
      have hm : m < xs.length := by simpa using hi
      simpa using cons_set_perm xs m hm x
    | Nat.succ m, Nat.succ n =>
      have hm : m < xs.length := by simpa using hi
      have hn : n < xs.length := by simpa using hj
      simpa using ih m n hm hn

theorem swapL_perm (l : List α) (i j : ℕ) (hi : i < l.length) (hj : j < l.length) :
    (swapL l i j).Perm l := by
  rw [swapL_of_lt l i j hi hj]
  exact set_set_swap_perm l i j hi hj

/-- The sub-array `arr[lo..hi]` (both ends inclusive). -/
def seg (l : List α) (lo hi : ℕ) : List α := (l.drop lo).take (hi + 1 - lo)

theorem seg_length (l : List α) (lo hi : ℕ) :
    (seg l lo hi).length = min (hi + 1 - lo) (l.length - lo) := by
  simp [seg]

theorem elemAt_seg (l : List α) (lo hi t : ℕ) (ht : t < hi + 1 - lo) :
    elemAt (seg l lo hi) t = elemAt l (lo + t) := by
  simp only [elemAt, List.getD_eq_getElem?_getD, seg]
  rw [List.getElem?_take_of_lt ht, List.getElem?_drop]

theorem mem_of_seg {l : List α} {lo hi : ℕ} {x : α} (h : x ∈ seg l lo hi) :
    ∃ k, lo ≤ k ∧ k ≤ hi ∧ k < l.length ∧ elemAt l k = x := by
  obtain ⟨t, ht, hx⟩ := List.mem_iff_getElem.mp h
  have hlen := seg_length l lo hi
  refine ⟨lo + t, by omega, by omega, by omega, ?_⟩
  rw [← elemAt_seg l lo hi t (by omega), elemAt_eq_getElem _ _ ht, hx]

theorem elemAt_mem_seg {l : List α} {lo hi k : ℕ} (h1 : lo ≤ k) (h2 : k ≤ hi)
    (h3 : k < l.length) : elemAt l k ∈ seg l lo hi := by
  have hlen := seg_length l lo hi
  have ht : k - lo < (seg l lo hi).length := by omega
  refine List.mem_iff_getElem.mpr ⟨k - lo, ht, ?_⟩
  rw [← elemAt_eq_getElem _ _ ht, elemAt_seg l lo hi (k - lo) (by omega)]
  congr 1
  omega

theorem pairwise_seg_iff {l : List α} {lo hi : ℕ} {R : α → α → Prop} :
    (seg l lo hi).Pairwise R ↔
      ∀ u v, lo ≤ u → u < v → v ≤ hi → v < l.length → R (elemAt l u) (elemAt l v) := by
  have hlen := seg_length l lo hi
  rw [List.pairwise_iff_getElem]
  constructor
  · intro h u v huv1 huv2 huv3 huv4
    have hi1 : u - lo < (seg l lo hi).length := by omega
    have hi2 : v - lo < (seg l lo hi).length := by omega
    have := h (u - lo) (v - lo) hi1 hi2 (by omega)
    rwa [← elemAt_eq_getElem _ _ hi1, ← elemAt_eq_getElem _ _ hi2,
      elemAt_seg l lo hi _ (by omega), elemAt_seg l lo hi _ (by omega),
      Nat.add_sub_cancel' huv1, Nat.add_sub_cancel' (by omega : lo ≤ v)] at this
  · intro h t1 t2 ht1 ht2 h12
    rw [← elemAt_eq_getElem _ _ ht1, ← elemAt_eq_getElem _ _ ht2,
      elemAt_seg l lo hi _ (by omega), elemAt_seg l lo hi _ (by omega)]
    exact h (lo + t1) (lo + t2) (by omega) (by omega) (by omega) (by omega)

theorem take_eq_take_of_frame {l l' : List α} {n : ℕ} (hlen : l'.length = l.length)
    (hfr : ∀ k, k < n → elemAt l' k = elemAt l k) : l'.take n = l.take n := by
  apply List.ext_getElem
  · simp [hlen]
  · intro t h1 h2
    simp only [List.length_take] at h1 h2
    have htl : t < l.length := by omega
    have htl' : t < l'.length := by omega
    have htn : t < n := by omega
    rw [List.getElem_take, List.getElem_take, ← elemAt_eq_getElem _ _ htl,
      ← elemAt_eq_getElem _ _ htl']
    exact hfr t htn

theorem drop_eq_drop_of_frame {l l' : List α} {n : ℕ} (hlen : l'.length = l.length)
    (hfr : ∀ k, n ≤ k → elemAt l' k = elemAt l k) : l'.drop n = l.drop n := by
  apply List.ext_getElem
  · simp [hlen]
  · intro t h1 h2
    simp only [List.length_drop] at h1 h2
    have htl : n + t < l.length := by omega
    have htl' : n + t < l'.length := by omega
    rw [List.getElem_drop, List.getElem_drop, ← elemAt_eq_getElem _ _ htl,
      ← elemAt_eq_getElem _ _ htl']
    exact hfr (n + t) (by omega)

theorem seg_perm_of_perm_of_frame {l l' : List α} {lo hi : ℕ} (hlo : lo ≤ hi + 1)
    (hp : l'.Perm l) (hfr : ∀ k, k < lo ∨ hi < k → elemAt l' k = elemAt l k) :
    (seg l' lo hi).Perm (seg l lo hi) := by
  have hlen : l'.length = l.length := hp.length_eq
  have hA : l'.take lo = l.take lo :=
    take_eq_take_of_frame hlen (fun k hk => hfr k (Or.inl hk))
  have hB : l'.drop (hi + 1) = l.drop (hi + 1) :=
    drop_eq_drop_of_frame hlen (fun k hk => hfr k (Or.inr (by omega)))
  have hdecomp : ∀ m : List α, m = m.take lo ++ (seg m lo hi ++ m.drop (hi + 1)) := by
    intro m
    conv_lhs => rw [← List.take_append_drop lo m]
    congr 1
    conv_lhs => rw [← List.take_append_drop (hi + 1 - lo) (m.drop lo)]
    congr 1
    rw [List.drop_drop]
    congr 1
    omega
  have hp2 : (l'.take lo ++ (seg l' lo hi ++ l'.drop (hi + 1))).Perm
      (l.take lo ++ (seg l lo hi ++ l.drop (hi + 1))) := by
    rw [← hdecomp l', ← hdecomp l]; exact hp
  rw [hA, hB] at hp2
  have hp3 := (List.perm_append_left_iff (l.take lo)).mp hp2
  exact (List.perm_append_right_iff (l.drop (hi + 1))).mp hp3

theorem pairwise_of_length_le_one {l : List α} {R : α → α → Prop} (h : l.length ≤ 1) :
    l.Pairwise R := by
  match l, h with
  | [], _ => exact List.Pairwise.nil
  | [a], _ => simp

/-- The partition-loop invariant: starting from a state where slots
`[low, s)` hold keys that pass the pivot comparison and `[s, j)` hold keys
that fail it, the loop returns a final slot index `s'` with the same
invariant extended to `j = high`, touches no slot outside `[low, high)`,
and permutes the array. -/
theorem partition_loop_spec (key_func : α → κ) (reverse : Bool) (pivot : κ) :
    ∀ (n j s low : ℕ) (arr : List α) (high : ℕ),
      high ≤ j + n → low ≤ s → s ≤ j → j ≤ high → high < arr.length →
      (∀ k, low ≤ k → k < s → keyLe reverse (key_func (elemAt arr k)) pivot) →
      (∀ k, s ≤ k → k < j → ¬ keyLe reverse (key_func (elemAt arr k)) pivot) →
      ∀ arrOut sOut, partition_loop key_func reverse pivot arr s j high = (arrOut, sOut) →
      arrOut.length = arr.length ∧ s ≤ sOut ∧ sOut ≤ high ∧
      (∀ k, k < s ∨ high ≤ k → elemAt arrOut k = elemAt arr k) ∧
      (∀ k, low ≤ k → k < sOut → keyLe reverse (key_func (elemAt arrOut k)) pivot) ∧
      (∀ k, sOut ≤ k → k < high → ¬ keyLe reverse (key_func (elemAt arrOut k)) pivot) ∧
      arrOut.Perm arr := by
  intro n
  induction n with
  | zero =>
    intro j s low arr high h1 h2 h3 h4 h5 hP1 hP2 arrOut sOut heq
    rw [partition_loop] at heq
    have hj : ¬ j < high := by omega
    simp only [hj, if_false, Prod.mk.injEq] at heq
    obtain ⟨ha, hs⟩ := heq
    subst ha hs
    refine ⟨rfl, le_rfl, by omega, fun k _ => rfl, hP1, ?_, List.Perm.refl _⟩
    intro k hk1 hk2
    exact hP2 k hk1 (by omega)
  | succ n ih =>
    intro j s low arr high h1 h2 h3 h4 h5 hP1 hP2 arrOut sOut heq
    rw [partition_loop] at heq
    by_cases hj : j < high
    · simp only [hj, if_true] at heq
      have hslen : s < arr.length := by omega
      have hjlen : j < arr.length := by omega
      by_cases hsw : keyLe reverse (key_func (elemAt arr j)) pivot
      · simp only [hsw, if_true] at heq
        have hswap_len : (swapL arr s j).length = arr.length := length_swapL arr s j
        have hP1' : ∀ k, low ≤ k → k < s + 1 →
            keyLe reverse (key_func (elemAt (swapL arr s j) k)) pivot := by
          intro k hk1 hk2
          rcases Nat.lt_or_ge k s with hk | hk
          · rw [elemAt_swapL_other arr s j k (by omega) (by omega)]
            exact hP1 k hk1 hk
          · have hks : k = s := by omega
            rw [hks, elemAt_swapL_left arr s j hslen hjlen]
            exact hsw
        have hP2' : ∀ k, s + 1 ≤ k → k < j + 1 →
            ¬ keyLe reverse (key_func (elemAt (swapL arr s j) k)) pivot := by
          intro k hk1 hk2
          rcases Nat.lt_or_ge k j with hk | hk
          · rw [elemAt_swapL_other arr s j k (by omega) (by omega)]
            exact hP2 k (by omega) hk
          · have hkj : k = j := by omega
            have hsj : s < j := by omega
            rw [hkj, elemAt_swapL_right arr s j hslen hjlen]
            exact hP2 s le_rfl hsj
        obtain ⟨ihlen, ihs1, ihs2, ihfr, ihQ1, ihQ2, ihperm⟩ :=
          ih (j + 1) (s + 1) low (swapL arr s j) high (by omega) (by omega) (by omega)
            (by omega) (by omega) hP1' hP2' arrOut sOut heq
        refine ⟨by omega, by omega, ihs2, ?_, ihQ1, ihQ2,
          ihperm.trans (swapL_perm arr s j hslen hjlen)⟩
        intro k hk
        rw [ihfr k (by omega)]
        exact elemAt_swapL_other arr s j k (by omega) (by omega)
      · simp only [hsw, if_false] at heq
        have hP2' : ∀ k, s ≤ k → k < j + 1 →
            ¬ keyLe reverse (key_func (elemAt arr k)) pivot := by
          intro k hk1 hk2
          rcases Nat.lt_or_ge k j with hk | hk
          · exact hP2 k hk1 hk
          · have : k = j := by omega
            subst this
            exact hsw
        exact ih (j + 1) s low arr high (by omega) h2 (by omega) (by omega) h5 hP1 hP2'
          arrOut sOut heq
    · simp only [hj, if_false, Prod.mk.injEq] at heq
      obtain ⟨ha, hs⟩ := heq
      subst ha hs
      refine ⟨rfl, le_rfl, by omega, fun k _ => rfl, hP1, ?_, List.Perm.refl _⟩
      intro k hk1 hk2
      exact hP2 k hk1 (by omega)

/-- Post-condition of `SortAlgorithms._partition`: the returned index `p`
carries the old pivot (`arr[high]`), everything left of it within the
segment passes the pivot comparison, everything right of it fails it,
nothing outside `[low, high]` moves, and the array is permuted. -/
theorem partition_spec (key_func : α → κ) (reverse : Bool) (arr : List α) (low high : ℕ)
    (hlh : low ≤ high) (hhl : high < arr.length) :
    ∀ arrOut p, partition key_func reverse arr low high = (arrOut, p) →
    arrOut.length = arr.length ∧ low ≤ p ∧ p ≤ high ∧
    (∀ k, k < low ∨ high < k → elemAt arrOut k = elemAt arr k) ∧
    elemAt arrOut p = elemAt arr high ∧
    (∀ k, low ≤ k → k < p →
      keyLe reverse (key_func (elemAt arrOut k)) (key_func (elemAt arrOut p))) ∧
    (∀ k, p < k → k ≤ high →
      ¬ keyLe reverse (key_func (elemAt arrOut k)) (key_func (elemAt arrOut p))) ∧
    arrOut.Perm arr := by
  intro arrOut p heq
  simp only [partition, Prod.mk.injEq] at heq
  obtain ⟨ha, hp⟩ := heq
  obtain ⟨L, hs1, hs2, FR, Q1, Q2, PM⟩ :=
    partition_loop_spec key_func reverse (key_func (elemAt arr high)) (high - low)
      low low low arr high (by omega) le_rfl le_rfl hlh hhl
      (fun k hk1 hk2 => absurd hk2 (by omega))
      (fun k hk1 hk2 => absurd hk2 (by omega))
      (partition_loop key_func reverse (key_func (elemAt arr high)) arr low low high).1
      (partition_loop key_func reverse (key_func (elemAt arr high)) arr low low high).2
      rfl
  set pl := partition_loop key_func reverse (key_func (elemAt arr high)) arr low low high
  subst ha hp
  have hplen : pl.1.length = arr.length := L
  have hp2len : pl.2 < pl.1.length := by omega
  have hhlen : high < pl.1.length := by omega
  have hpivot : elemAt (swapL pl.1 pl.2 high) pl.2 = elemAt arr high := by
    rw [elemAt_swapL_left pl.1 pl.2 high hp2len hhlen]
    exact FR high (Or.inr le_rfl)
  refine ⟨by rw [length_swapL]; exact L, by omega, by omega, ?_, hpivot, ?_, ?_, ?_⟩
  · intro k hk
    rw [elemAt_swapL_other pl.1 pl.2 high k (by omega) (by omega)]
    exact FR k (by omega)
  · intro k hk1 hk2
    rw [hpivot, elemAt_swapL_other pl.1 pl.2 high k (by omega) (by omega)]
    exact Q1 k hk1 hk2
  · intro k hk1 hk2
    rw [hpivot]
    rcases Nat.lt_or_ge k high with hk | hk
    · rw [elemAt_swapL_other pl.1 pl.2 high k (by omega) (by omega)]
      exact Q2 k (by omega) hk
    · have hkh : k = high := by omega
      rw [hkh, elemAt_swapL_right pl.1 pl.2 high hp2len hhlen]
      exact Q2 pl.2 le_rfl (by omega)
  · exact (swapL_perm pl.1 pl.2 high hp2len hhlen).trans PM

theorem seg_eq_of_frame {l l' : List α} {lo hi : ℕ} (hlen : l'.length = l.length)
    (h : ∀ k, lo ≤ k → k ≤ hi → elemAt l' k = elemAt l k) :
    seg l' lo hi = seg l lo hi := by
  apply List.ext_getElem
  · rw [seg_length, seg_length, hlen]
  · intro t h1 h2
    rw [seg_length] at h1 h2
    rw [← elemAt_eq_getElem _ _ (by rw [seg_length]; omega),
      ← elemAt_eq_getElem _ _ (by rw [seg_length]; omega),
      elemAt_seg l' lo hi t (by omega), elemAt_seg l lo hi t (by omega)]
    exact h (lo + t) (by omega) (by omega)

/-- Full post-condition of `SortAlgorithms._quicksort_recursive`: the call
sorts the segment `[low, high]` (with respect to the direction's
comparison on extracted keys), touches nothing outside it, and permutes
the array. -/
theorem quicksort_recursive_spec (key_func : α → κ) (reverse : Bool) :
    ∀ (fuel : ℕ) (arr : List α) (low high : ℕ), high + 1 - low ≤ fuel →
    high < arr.length →
    ∀ res, quicksort_recursive key_func reverse arr low high = res →
    res.length = arr.length ∧
    (high ≤ low → res = arr) ∧
    (∀ k, k < low ∨ high < k → elemAt res k = elemAt arr k) ∧
    res.Perm arr ∧
    (seg res low high).Pairwise (fun a b => keyLe reverse (key_func a) (key_func b)) := by
  intro fuel
  induction fuel with
  | zero =>
    intro arr low high hfuel hlen res hres
    rw [quicksort_recursive] at hres
    have hlh : ¬ low < high := by omega
    simp only [hlh, if_false] at hres
    subst hres
    refine ⟨rfl, fun _ => rfl, fun k _ => rfl, List.Perm.refl _, pairwise_of_length_le_one ?_⟩
    rw [seg_length]
    omega
  | succ fuel ih =>
    intro arr low high hfuel hlen res hres
    rw [quicksort_recursive] at hres
    by_cases hlh : low < high
    · simp only [hlh, if_true] at hres
      obtain ⟨P_len, Pp1, Pp2, P_fr, P_piv, P_Q1, P_Q2, P_perm⟩ :=
        partition_spec key_func reverse arr low high (by omega) hlen
          (partition key_func reverse arr low high).1
          (partition key_func reverse arr low high).2 rfl
      set a1 := (partition key_func reverse arr low high).1 with ha1
      set p := (partition key_func reverse arr low high).2 with hp
      obtain ⟨L2, E2, FR2, PM2, S2⟩ := ih a1 low (p - 1) (by omega) (by omega)
        (quicksort_recursive key_func reverse a1 low (p - 1)) rfl
      set a2 := quicksort_recursive key_func reverse a1 low (p - 1) with ha2
      obtain ⟨L3, E3, FR3, PM3, S3⟩ := ih a2 (p + 1) high (by omega) (by omega)
        (quicksort_recursive key_func reverse a2 (p + 1) high) rfl
      set a3 := quicksort_recursive key_func reverse a2 (p + 1) high with ha3
      subst hres
      have hsry : ∀ k, k < low ∨ high < k → elemAt a3 k = elemAt arr k := by
        intro k hk
        rw [FR3 k (by omega), FR2 k (by omega), P_fr k hk]
      have hpiv2 : elemAt a2 p = elemAt a1 p := by
        rcases Nat.eq_zero_or_pos p with hp0 | hp0
        · rw [E2 (by omega)]
        · rw [FR2 p (by omega)]
      have hpiv3 : elemAt a3 p = elemAt a1 p := by
        rw [FR3 p (by omega), hpiv2]
      have hseg2 : (seg a2 low (p - 1)).Perm (seg a1 low (p - 1)) :=
        seg_perm_of_perm_of_frame (by omega) PM2 FR2
      have hseg3 : (seg a3 (p + 1) high).Perm (seg a2 (p + 1) high) :=
        seg_perm_of_perm_of_frame (by omega) PM3 FR3
      have hseg32 : seg a2 (p + 1) high = seg a1 (p + 1) high :=
        seg_eq_of_frame (by omega) (fun k hk1 _ => FR2 k (by omega))
      have hKL : ∀ u, low ≤ u → u < p →
          keyLe reverse (key_func (elemAt a2 u)) (key_func (elemAt a1 p)) := by
        intro u hu1 hu2
        have hmem : elemAt a2 u ∈ seg a2 low (p - 1) :=
          elemAt_mem_seg hu1 (by omega) (by omega)
        obtain ⟨m, hm1, hm2, hm3, hm4⟩ := mem_of_seg (hseg2.subset hmem)
        rw [← hm4]
        exact P_Q1 m hm1 (by omega)
      have hKR : ∀ v, p < v → v ≤ high →
          keyLe reverse (key_func (elemAt a1 p)) (key_func (elemAt a3 v)) := by
        intro v hv1 hv2
        have hmem : elemAt a3 v ∈ seg a3 (p + 1) high :=
          elemAt_mem_seg (by omega) hv2 (by omega)
        have hmem2 : elemAt a3 v ∈ seg a1 (p + 1) high := by
          rw [← hseg32]
          exact hseg3.subset hmem
        obtain ⟨m, hm1, hm2, hm3, hm4⟩ := mem_of_seg hmem2
        rw [← hm4]
        exact keyLe_of_not_keyLe (P_Q2 m (by omega) hm2)
      refine ⟨by rw [L3, L2, P_len], fun h => absurd hlh (by omega), hsry,
        PM3.trans (PM2.trans P_perm), ?_⟩
      rw [pairwise_seg_iff]
      intro u v hu huv hv hvlen
      rcases Nat.lt_trichotomy v p with hvp | hvp | hvp
      · have hu3 : elemAt a3 u = elemAt a2 u := FR3 u (by omega)
        have hv3 : elemAt a3 v = elemAt a2 v := FR3 v (by omega)
        rw [hu3, hv3]
        exact (pairwise_seg_iff.mp S2) u v hu huv (by omega) (by omega)
      · subst hvp
        rw [hpiv3, FR3 u (by omega)]
        exact hKL u hu huv
      · rcases Nat.lt_trichotomy u p with hup | hup | hup
        · have hu3 : elemAt a3 u = elemAt a2 u := FR3 u (by omega)
          rw [hu3]
          exact keyLe_trans (hKL u hu hup) (hKR v hvp hv)
        · subst hup
          rw [hpiv3]
          exact hKR v hvp hv
        · exact (pairwise_seg_iff.mp S3) u v (by omega) huv hv hvlen
    · simp only [hlh, if_false] at hres
      subst hres
      refine ⟨rfl, fun _ => rfl, fun k _ => rfl, List.Perm.refl _, pairwise_of_length_le_one ?_⟩
      rw [seg_length]
      omega

theorem merge_perm (key_func : α → κ) (reverse : Bool) :
    ∀ (n : ℕ) (l r : List α), l.length + r.length ≤ n →
      (merge key_func reverse l r).Perm (l ++ r) := by
  intro n
  induction n with
  | zero =>
    intro l r h
    have hl : l = [] := List.length_eq_zero.mp (by omega)
    have hr : r = [] := List.length_eq_zero.mp (by omega)
    subst hl hr
    simp [merge]
  | succ n ih =>
    intro l r h
    match l, r with
    | [], r => simp [merge]
    | a :: l', [] => simp [merge]
    | a :: l', b :: r' =>
      simp only [merge]
      by_cases hsw : keyLe reverse (key_func a) (key_func b)
      · simp only [hsw, if_true]
        exact List.Perm.cons a (ih l' (b :: r') (by simp at h ⊢; omega))
      · simp only [hsw, if_false]
        refine (List.Perm.cons b (ih (a :: l') r' (by simp at h ⊢; omega))).trans ?_
        exact List.perm_middle.symm

theorem merge_pairwise (key_func : α → κ) (reverse : Bool) :
    ∀ (n : ℕ) (l r : List α), l.length + r.length ≤ n →
      l.Pairwise (fun a b => keyLe reverse (key_func a) (key_func b)) →
      r.Pairwise (fun a b => keyLe reverse (key_func a) (key_func b)) →
      (merge key_func reverse l r).Pairwise
        (fun a b => keyLe reverse (key_func a) (key_func b)) := by
  intro n
  induction n with
  | zero =>
    intro l r h _ _
    have hl : l = [] := List.length_eq_zero.mp (by omega)
    have hr : r = [] := List.length_eq_zero.mp (by omega)
    subst hl hr
    simp [merge]
  | succ n ih =>
    intro l r h hl hr
    match l, r with
    | [], r => simpa [merge] using hr
    | a :: l', [] => simpa [merge] using hl
    | a :: l', b :: r' =>
      simp only [merge]
      obtain ⟨ha, hl'⟩ := List.pairwise_cons.mp hl
      obtain ⟨hb, hr'⟩ := List.pairwise_cons.mp hr
      by_cases hsw : keyLe reverse (key_func a) (key_func b)
      · simp only [hsw, if_true]
        refine List.pairwise_cons.mpr ⟨?_, ih l' (b :: r') (by simp at h ⊢; omega) hl' hr⟩
        intro x hx
        have hx2 : x ∈ l' ++ b :: r' :=
          (merge_perm key_func reverse n l' (b :: r') (by simp at h ⊢; omega)).subset hx
        rcases List.mem_append.mp hx2 with hx3 | hx3
        · exact ha x hx3
        · rcases List.mem_cons.mp hx3 with rfl | hx4
          · exact hsw
          · exact keyLe_trans hsw (hb x hx4)
      · simp only [hsw, if_false]
        refine List.pairwise_cons.mpr ⟨?_, ih (a :: l') r' (by simp at h ⊢; omega) hl hr'⟩
        intro x hx
        have hx2 : x ∈ a :: l' ++ r' :=
          (merge_perm key_func reverse n (a :: l') r' (by simp at h ⊢; omega)).subset hx
        have hba : keyLe reverse (key_func b) (key_func a) := keyLe_of_not_keyLe hsw
        rcases List.mem_cons.mp hx2 with rfl | hx3
        · exact hba
        · rcases List.mem_append.mp hx3 with hx4 | hx4
          · exact keyLe_trans hba (ha x hx4)
          · exact hb x hx4

theorem mergesort_recursive_spec (key_func : α → κ) (reverse : Bool) :
    ∀ (n : ℕ) (arr : List α), arr.length ≤ n →
      (mergesort_recursive key_func reverse arr).Perm arr ∧
      (mergesort_recursive key_func reverse arr).Pairwise
        (fun a b => keyLe reverse (key_func a) (key_func b)) := by
  intro n
  induction n with
  | zero =>
    intro arr h
    have : arr.length ≤ 1 := by omega
    rw [mergesort_recursive]
    simp only [this, dif_pos]
    exact ⟨List.Perm.refl _, pairwise_of_length_le_one this⟩
  | succ n ih =>
    intro arr h
    rw [mergesort_recursive]
    by_cases h1 : arr.length ≤ 1
    · simp only [h1, dif_pos]
      exact ⟨List.Perm.refl _, pairwise_of_length_le_one h1⟩
    · simp only [h1, dif_neg, not_false_iff]
      have hT : (arr.take (arr.length / 2)).length ≤ n := by
        simp only [List.length_take]
        omega
      have hD : (arr.drop (arr.length / 2)).length ≤ n := by
        simp only [List.length_drop]
        omega
      obtain ⟨pT, sT⟩ := ih (arr.take (arr.length / 2)) hT
      obtain ⟨pD, sD⟩ := ih (arr.drop (arr.length / 2)) hD
      have hmlen : (mergesort_recursive key_func reverse (arr.take (arr.length / 2))).length +
          (mergesort_recursive key_func reverse (arr.drop (arr.length / 2))).length ≤
          arr.length := by
        rw [pT.length_eq, pD.length_eq]
        simp only [List.length_take, List.length_drop]
        omega
      constructor
      · refine (merge_perm key_func reverse arr.length _ _ hmlen).trans ?_
        refine (pT.append pD).trans ?_
        rw [List.take_append_drop]
      · exact merge_pairwise key_func reverse arr.length _ _ hmlen sT sD

theorem timsort_perm (receipts : List α) (key_func : α → κ) (reverse : Bool) :
    (timsort receipts key_func reverse).Perm receipts :=
  List.perm_insertionSort _ _

theorem timsort_pairwise (receipts : List α) (key_func : α → κ) (reverse : Bool) :
    (timsort receipts key_func reverse).Pairwise
      (fun a b => keyLe reverse (key_func a) (key_func b)) := by
  haveI : IsTotal α (fun a b => keyLe reverse (key_func a) (key_func b)) :=
    ⟨fun a b => keyLe_total reverse (key_func a) (key_func b)⟩
  haveI : IsTrans α (fun a b => keyLe reverse (key_func a) (key_func b)) :=
    ⟨fun _ _ _ hab hbc => keyLe_trans hab hbc⟩
  exact List.sorted_insertionSort _ receipts

/-- The spec's reading of "keys in non-decreasing (ascending) or
non-increasing (descending) order". -/
def keysOrdered (l : List α) (key_func : α → κ) (reverse : Bool) : Prop :=
  if reverse then (l.map key_func).Sorted (· ≥ ·) else (l.map key_func).Sorted (· ≤ ·)

theorem keysOrdered_iff_pairwise {l : List α} {key_func : α → κ} {reverse : Bool} :
    keysOrdered l key_func reverse ↔
      l.Pairwise (fun a b => keyLe reverse (key_func a) (key_func b)) := by
  unfold keysOrdered keyLe List.Sorted
  cases reverse <;> simp only [if_true, if_false, Bool.false_eq_true, List.pairwise_map]

theorem quicksort_perm_pairwise (receipts : List α) (key_func : α → κ) (reverse : Bool) :
    (quicksort receipts key_func reverse).Perm receipts ∧
    (quicksort receipts key_func reverse).Pairwise
      (fun a b => keyLe reverse (key_func a) (key_func b)) := by
  unfold quicksort
  rcases Nat.eq_zero_or_pos receipts.length with h0 | h0
  · rw [quicksort_recursive]
    have : ¬ (0 : ℕ) < receipts.length - 1 := by omega
    simp only [this, if_false]
    exact ⟨List.Perm.refl _, pairwise_of_length_le_one (by omega)⟩
  · obtain ⟨L, _, _, PM, S⟩ := quicksort_recursive_spec key_func reverse receipts.length
      receipts 0 (receipts.length - 1) (by omega) (by omega)
      (quicksort_recursive key_func reverse receipts 0 (receipts.length - 1)) rfl
    refine ⟨PM, ?_⟩
    have hseg : seg (quicksort_recursive key_func reverse receipts 0 (receipts.length - 1))
        0 (receipts.length - 1) =
        quicksort_recursive key_func reverse receipts 0 (receipts.length - 1) := by
      unfold seg
      rw [List.drop_zero, List.take_of_length_le]
      omega
    rwa [hseg] at S

/-- The two-level lexicographic order C6 speaks about: primary key `c`
ascending, secondary key `a` descending within equal primary keys. -/
def lexRel {α : Type} {γ δ : Type} [LinearOrder γ] [LinearOrder δ]
    (c : α → γ) (a : α → δ) (u v : α) : Prop :=
  c u < c v ∨ (c u = c v ∧ a v ≤ a u)

theorem orderedInsert_lex {γ δ : Type} [LinearOrder γ] [LinearOrder δ]
    (c : α → γ) (a : α → δ) (x : α) :
    ∀ l : List α,
      l.Pairwise (fun u v => keyLe false (c u) (c v)) →
      l.Pairwise (lexRel c a) →
      (∀ y ∈ l, c x = c y → a y ≤ a x) →
      (List.orderedInsert (fun u v => keyLe false (c u) (c v)) x l).Pairwise
        (lexRel c a) := by
  intro l
  induction l with
  | nil =>
    intro _ _ _
    simp [List.orderedInsert]
  | cons b t ih =>
    intro hs hR hq
    rw [List.orderedInsert]
    by_cases hxb : keyLe false (c x) (c b)
    · rw [if_pos hxb]
      refine List.pairwise_cons.mpr ⟨?_, hR⟩
      intro y hy
      have hcxy : c x ≤ c y := by
        rcases List.mem_cons.mp hy with rfl | hy2
        · simpa [keyLe] using hxb
        · have h1 : c x ≤ c b := by simpa [keyLe] using hxb
          have h2 : c b ≤ c y := by
            have := (List.pairwise_cons.mp hs).1 y hy2
            simpa [keyLe] using this
          exact le_trans h1 h2
      rcases lt_or_eq_of_le hcxy with hlt | heq2
      · exact Or.inl hlt
      · exact Or.inr ⟨heq2, hq y hy heq2⟩
    · rw [if_neg hxb]
      refine List.pairwise_cons.mpr ⟨?_, ?_⟩
      · intro y hy
        rcases (List.mem_orderedInsert _).mp hy with rfl | hy2
        · refine Or.inl ?_
          have hnb : ¬ c y ≤ c b := by simpa [keyLe] using hxb
          exact not_le.mp hnb
        · exact (List.pairwise_cons.mp hR).1 y hy2
      · exact ih (List.pairwise_cons.mp hs).2 (List.pairwise_cons.mp hR).2
          (fun y hy => hq y (List.mem_cons_of_mem b hy))

theorem timsort_lex {γ δ : Type} [LinearOrder γ] [LinearOrder δ]
    (c : α → γ) (a : α → δ) :
    ∀ l : List α, l.Pairwise (fun u v => c u = c v → a v ≤ a u) →
      (timsort l c false).Pairwise (lexRel c a) := by
  intro l
  induction l with
  | nil =>
    intro _
    simp [timsort, List.insertionSort]
  | cons x t ih =>
    intro h
    obtain ⟨hx, ht⟩ := List.pairwise_cons.mp h
    show (List.insertionSort _ (x :: t)).Pairwise (lexRel c a)
    simp only [List.insertionSort]
    apply orderedInsert_lex
    · exact timsort_pairwise t c false
    · exact ih ht
    · intro y hy heq
      exact hx y ((List.mem_insertionSort _).mp hy) heq

end SortProofs

/-! ## The caller's view: sorting allocates, it does not mutate

A small heap of Python list objects makes the frame property of the sort
entry points statable: cell `i` of a `Store` is the list of records the
`i`-th reference denotes.  Every top-level sort first takes
`receipts.copy()` — a fresh cell — and all the in-place mutation of the
quicksort acts on that fresh cell; merge/tim-sort build fresh lists
outright.  Records themselves are only ever read (via `key_func`), never
written. -/

section StoreModel

variable {α : Type} {κ : Type} [Inhabited α] [LinearOrder κ]

/-- The caller's heap of list objects. -/
abbrev Store (α : Type) := List (List α)

/-- Dereference a list object. -/
def readRef (s : Store α) (ref : ℕ) : List α := s.getD ref []

/-- `receipts.copy()`: a fresh cell holding the same record references. -/
def copyRef (s : Store α) (ref : ℕ) : Store α × ℕ := (s ++ [readRef s ref], s.length)

/-- `SortAlgorithms.quicksort` as a heap operation: copy the argument,
then sort the copy in place (`_quicksort_recursive` swaps slots of the
fresh cell only). -/
def quicksortOp (key_func : α → κ) (reverse : Bool) (s : Store α) (ref : ℕ) :
    Store α × ℕ :=
  ((copyRef s ref).1.set (copyRef s ref).2
    (quicksort_recursive key_func reverse (readRef s ref) 0 ((readRef s ref).length - 1)),
   (copyRef s ref).2)

/-- `SortAlgorithms.mergesort` as a heap operation: the recursion builds
fresh lists, so its net effect is one fresh cell with the sorted value. -/
def mergesortOp (key_func : α → κ) (reverse : Bool) (s : Store α) (ref : ℕ) :
    Store α × ℕ :=
  (s ++ [mergesort (readRef s ref) key_func reverse], s.length)

/-- `SortAlgorithms.timsort` as a heap operation (`sorted` builds a new
list). -/
def timsortOp (key_func : α → κ) (reverse : Bool) (s : Store α) (ref : ℕ) :
    Store α × ℕ :=
  (s ++ [timsort (readRef s ref) key_func reverse], s.length)

/-- The field-specific sorts dispatch on the algorithm name. -/
def sortFieldOp (key_func : Receipt → κ) (reverse : Bool) (algorithm : Str)
    (s : Store Receipt) (ref : ℕ) : Store Receipt × ℕ :=
  if algorithm = "quicksort".toList then quicksortOp key_func reverse s ref
  else if algorithm = "mergesort".toList then mergesortOp key_func reverse s ref
  else timsortOp key_func reverse s ref

/-- `SortAlgorithms.multi_level_sort` as a heap operation: `receipts.copy()`
then a chain of timsorts, each of which builds a fresh list; the net
effect is one fresh cell with the final value. -/
def multi_level_sortOp (sort_criteria : List SortCriterion) (s : Store Receipt)
    (ref : ℕ) : Store Receipt × ℕ :=
  (s ++ [multi_level_sort (readRef s ref) sort_criteria], s.length)

/-- The frame property C9 asks of a sort entry point: no existing cell
changes (in particular the caller's input list), the returned reference is
a fresh cell, and that cell holds a permutation of the input records (the
record values themselves reappear unchanged). -/
def preservesCaller (op : Store α → ℕ → Store α × ℕ) : Prop :=
  ∀ (s : Store α) (ref : ℕ),
    (∀ k, k < s.length → readRef (op s ref).1 k = readRef s k) ∧
    s.length ≤ (op s ref).2 ∧
    (readRef (op s ref).1 (op s ref).2).Perm (readRef s ref)

theorem set_fresh_cell (s : Store α) (v w : List α) :
    (s ++ [v]).set s.length w = s ++ [w] := by
  induction s with
  | nil => simp
  | cons x xs ih => simp [List.set, ih]

theorem readRef_append_lt (s : Store α) (v : List α) (k : ℕ) (h : k < s.length) :
    readRef (s ++ [v]) k = readRef s k := by
  unfold readRef
  rw [List.getD_eq_getElem?_getD, List.getD_eq_getElem?_getD, List.getElem?_append_left h]

theorem readRef_append_self (s : Store α) (v : List α) :
    readRef (s ++ [v]) s.length = v := by
  unfold readRef
  rw [List.getD_eq_getElem?_getD]
  have : (s ++ [v])[s.length]? = some v := by
    rw [List.getElem?_append_right (le_refl s.length)]
    simp
  rw [this]
  rfl

theorem quicksortOp_preserves (key_func : α → κ) (reverse : Bool) :
    preservesCaller (quicksortOp key_func reverse) := by
  intro s ref
  unfold quicksortOp copyRef
  simp only
  rw [set_fresh_cell]
  refine ⟨fun k hk => readRef_append_lt s _ k hk, le_refl _, ?_⟩
  rw [readRef_append_self]
  exact (quicksort_perm_pairwise (readRef s ref) key_func reverse).1

theorem mergesortOp_preserves (key_func : α → κ) (reverse : Bool) :
    preservesCaller (mergesortOp key_func reverse) := by
  intro s ref
  unfold mergesortOp
  refine ⟨fun k hk => readRef_append_lt s _ k hk, le_refl _, ?_⟩
  rw [readRef_append_self]
  exact (mergesort_recursive_spec key_func reverse (readRef s ref).length
    (readRef s ref) le_rfl).1

theorem timsortOp_preserves (key_func : α → κ) (reverse : Bool) :
    preservesCaller (timsortOp key_func reverse) := by
  intro s ref
  unfold timsortOp
  refine ⟨fun k hk => readRef_append_lt s _ k hk, le_refl _, ?_⟩
  rw [readRef_append_self]
  exact timsort_perm (readRef s ref) key_func reverse

theorem sortFieldOp_preserves (key_func : Receipt → κ) (reverse : Bool) (algorithm : Str) :
    preservesCaller (sortFieldOp key_func reverse algorithm) := by
  unfold sortFieldOp
  split
  · exact quicksortOp_preserves key_func reverse
  · split
    · exact mergesortOp_preserves key_func reverse
    · exact timsortOp_preserves key_func reverse

theorem multi_level_sort_perm (receipts : List Receipt)
    (sort_criteria : List SortCriterion) :
    (multi_level_sort receipts sort_criteria).Perm receipts := by
  unfold multi_level_sort
  generalize sort_criteria.reverse = cs
  induction cs generalizing receipts with
  | nil => exact List.Perm.refl _
  | cons c cs ih =>
    rw [List.foldl_cons]
    refine (ih _).trans ?_
    split
    · unfold sort_by_amount
      split
      · exact (quicksort_perm_pairwise _ _ _).1
      · split
        · exact (mergesort_recursive_spec _ _ _ _ le_rfl).1
        · exact timsort_perm _ _ _
    · split
      · unfold sort_by_date
        split
        · exact (quicksort_perm_pairwise _ _ _).1
        · split
          · exact (mergesort_recursive_spec _ _ _ _ le_rfl).1
          · exact timsort_perm _ _ _
      · split
        · unfold sort_by_vendor
          split
          · exact (quicksort_perm_pairwise _ _ _).1
          · split
            · exact (mergesort_recursive_spec _ _ _ _ le_rfl).1
            · exact timsort_perm _ _ _
        · split
          · unfold sort_by_category
            split
            · exact (quicksort_perm_pairwise _ _ _).1
            · split
              · exact (mergesort_recursive_spec _ _ _ _ le_rfl).1
              · exact timsort_perm _ _ _
          · exact List.Perm.refl _

theorem multi_level_sortOp_preserves (sort_criteria : List SortCriterion) :
    preservesCaller (multi_level_sortOp sort_criteria) := by
  intro s ref
  unfold multi_level_sortOp
  refine ⟨fun k hk => readRef_append_lt s _ k hk, le_refl _, ?_⟩
  rw [readRef_append_self]
  exact multi_level_sort_perm (readRef s ref) sort_criteria

end StoreModel

/-! ## Claim theorems for the sort engine -/

section SortClaims

variable {α : Type} {κ : Type} [Inhabited α] [LinearOrder κ]

/-- **C1.** For every input list of records, every key-extraction function
(into any linearly ordered key type) and either direction, each of the
three sort algorithms — quicksort, mergesort and timsort — returns a
permutation of the input list whose extracted keys are in non-decreasing
order (ascending) or non-increasing order (descending). -/
theorem sort_algorithms_permutation_and_ordered
    (receipts : List α) (key_func : α → κ) (reverse : Bool) :
    ((quicksort receipts key_func reverse).Perm receipts ∧
      keysOrdered (quicksort receipts key_func reverse) key_func reverse) ∧
    ((mergesort receipts key_func reverse).Perm receipts ∧
      keysOrdered (mergesort receipts key_func reverse) key_func reverse) ∧
    ((timsort receipts key_func reverse).Perm receipts ∧
      keysOrdered (timsort receipts key_func reverse) key_func reverse) := by
  obtain ⟨qp, qs⟩ := quicksort_perm_pairwise receipts key_func reverse
  obtain ⟨mp, ms⟩ := mergesort_recursive_spec key_func reverse receipts.length receipts le_rfl
  exact ⟨⟨qp, keysOrdered_iff_pairwise.mpr qs⟩,
    ⟨mp, keysOrdered_iff_pairwise.mpr ms⟩,
    ⟨timsort_perm receipts key_func reverse,
      keysOrdered_iff_pairwise.mpr (timsort_pairwise receipts key_func reverse)⟩⟩

/-- **C6.** For every record collection, `multi_level_sort` with criteria
`[{field: category, reverse: false}, {field: amount, reverse: true}]`
returns a permutation of the records ordered by category alphabetically
(on the case-folded category key) and, within equal categories, by amount
descending: the first criterion acts as the primary key because the
single-field (stable) sorts are applied in reverse criteria order. -/
theorem multi_level_sort_category_then_amount (receipts : List Receipt) :
    (multi_level_sort receipts
      [⟨"category".toList, false⟩, ⟨"amount".toList, true⟩]).Perm receipts ∧
    (multi_level_sort receipts
      [⟨"category".toList, false⟩, ⟨"amount".toList, true⟩]).Pairwise
        (lexRel category_key amount_key) := by
  have hml : multi_level_sort receipts [⟨"category".toList, false⟩, ⟨"amount".toList, true⟩] =
      timsort (timsort receipts amount_key true) category_key false := rfl
  rw [hml]
  constructor
  · exact (timsort_perm _ _ _).trans (timsort_perm _ _ _)
  · apply timsort_lex
    refine (timsort_pairwise receipts amount_key true).imp ?_
    intro u v h _
    simpa [keyLe] using h

/-- **C9.** Every sort operation — quicksort, mergesort, timsort, each of
the four field-specific sorts under any algorithm choice, and
`multi_level_sort` — leaves every list the caller already holds unchanged
(the input list in particular), returns a freshly allocated list, and that
list carries exactly the input records (a permutation: no record value is
altered). -/
theorem sort_operations_do_not_mutate_caller (key_func : α → κ)
    (rkey : Receipt → κ) (reverse : Bool) (algorithm : Str)
    (sort_criteria : List SortCriterion) :
    preservesCaller (quicksortOp key_func reverse) ∧
    preservesCaller (mergesortOp key_func reverse) ∧
    preservesCaller (timsortOp key_func reverse) ∧
    preservesCaller (sortFieldOp rkey reverse algorithm) ∧
    preservesCaller (multi_level_sortOp sort_criteria) :=
  ⟨quicksortOp_preserves key_func reverse, mergesortOp_preserves key_func reverse,
    timsortOp_preserves key_func reverse, sortFieldOp_preserves rkey reverse algorithm,
    multi_level_sortOp_preserves sort_criteria⟩

end SortClaims

/-! ## Search engine (`src/algorithms/search_algorithms.py`)

The SQLAlchemy session is the list `db` of stored receipts;
`query(Receipt).all()` returns it.  The order of the `IN`-query of
`hash_search` and the iteration order of Python's `set` in
`_extract_keywords` are unspecified; the model fixes them to scan order
(first occurrence), which no claim depends on. -/

section SearchEngine

/-- Entry `matrix[i][j]` of the `_calculate_similarity` DP matrix: the
cost row/column initialisation and fill loop of the source compute
exactly this recurrence (`matrix[i][0] = i`, `matrix[0][j] = j`,
interior = min of deletion, insertion and substitution). -/
def levMatrix (str1 str2 : Str) : ℕ → ℕ → ℕ
  | i, 0 => i
  | 0, j + 1 => j + 1
  | i + 1, j + 1 =>
    min (levMatrix str1 str2 i (j + 1) + 1)
      (min (levMatrix str1 str2 (i + 1) j + 1)
        (levMatrix str1 str2 i j + (if str1.getD i ' ' = str2.getD j ' ' then 0 else 1)))
termination_by i j => (i, j)

/-- `SearchAlgorithms._calculate_similarity`, including the leading
falsy-string guard and the two (unreachable) length guards. -/
def calculate_similarity (str1 str2 : Str) : ℚ :=
  if str1 = [] ∨ str2 = [] then 0
  else
    let len1 := str1.length
    let len2 := str2.length
    if len1 = 0 then (if len2 > 0 then 0 else 1)
    else if len2 = 0 then 0
    else 1 - (levMatrix str1 str2 len1 len2 : ℚ) / ((max len1 len2 : ℕ) : ℚ)

/-- `SearchAlgorithms.linear_search`: case-insensitive string equality on
the string forms, skipping unknown fields and falsy values. -/
def linear_search (db : List Receipt) (field : Str) (value : PyVal) : List Receipt :=
  db.filter fun receipt =>
    match getField receipt field with
    | Option.some receipt_value =>
        truthy receipt_value &&
          decide (strLower (pyStr receipt_value) = strLower (pyStr value))
    | Option.none => false

/-- SQL `>=`/`<=` on dynamic values: same-kind values compare, anything
else (NULL included) never matches. -/
def pvLe : PyVal → PyVal → Bool
  | .num a, .num b => a ≤ b
  | .date a, .date b => a ≤ b
  | _, _ => false

/-- `SearchAlgorithms.range_search`: inclusive bounds on one of the three
supported fields; any other field name applies no filter at all. -/
def range_search (db : List Receipt) (field : Str) (min_value max_value : PyVal) :
    List Receipt :=
  if field = "amount".toList then
    db.filter fun r => match r.amount with
      | Option.some a => pvLe min_value (.num a) && pvLe (.num a) max_value
      | Option.none => false
  else if field = "transaction_date".toList then
    db.filter fun r => match r.transaction_date with
      | Option.some d => pvLe min_value (.date d) && pvLe (.date d) max_value
      | Option.none => false
  else if field = "upload_date".toList then
    db.filter fun r =>
      pvLe min_value (.date r.upload_date) && pvLe (.date r.upload_date) max_value
  else db

/-- `\w` (ASCII). -/
def isWordChar (c : Char) : Bool := c.isAlpha || c.isDigit || c = '_'

/-- Maximal runs of word characters of a string (the token structure the
`\b`-delimited regex of `_extract_keywords` sees). -/
def wordRuns : Str → List Str
  | [] => []
  | c :: rest =>
    let r := wordRuns rest
    if isWordChar c then
      match rest with
      | [] => [[c]]
      | d :: _ =>
        if isWordChar d then
          match r with
          | h :: t => (c :: h) :: t
          | [] => [[c]]
        else [c] :: r
    else r

/-- The stop-word set of `_extract_keywords`. -/
def stop_words : List Str :=
  ["the", "and", "for", "are", "but", "not", "you", "all", "can", "had",
   "her", "was", "one", "our", "out", "day", "get", "has", "him", "his",
   "how", "its", "may", "new", "now", "old", "see", "two", "who", "boy",
   "did", "she", "use", "way", "will", "with"].map String.toList

/-- `SearchAlgorithms._extract_keywords`: `re.findall` of
`\b[A-Za-z]{3,}\b` over the lower-cased text (= the maximal word runs
that are purely alphabetic, length at least 3), minus stop words;
`list(set(...))` modelled as dedup. -/
def extract_keywords (text : Str) : List Str :=
  let words := (wordRuns (strLower text)).filter
    (fun w => w.all Char.isAlpha && decide (w.length ≥ 3))
  let keywords := words.filter
    (fun w => decide (w ∉ stop_words) && decide (w.length ≥ 3))
  keywords.dedup

/-- The vendor hash index of `_build_search_indexes`, resolved at a key:
ids of receipts with that (truthy, lower-cased) vendor. -/
def vendor_ids (db : List Receipt) (value_key : Str) : List ℤ :=
  (db.filter fun r => match r.vendor with
    | Option.some v => decide (v ≠ []) && decide (strLower v = value_key)
    | Option.none => false).map Receipt.id

/-- The category hash index, resolved at a key. -/
def category_ids (db : List Receipt) (value_key : Str) : List ℤ :=
  (db.filter fun r => match r.category with
    | Option.some v => decide (v ≠ []) && decide (strLower v = value_key)
    | Option.none => false).map Receipt.id

/-- The keyword hash index, resolved at a key: ids of receipts whose
(truthy) `raw_text` yields that keyword. -/
def keyword_ids (db : List Receipt) (value_key : Str) : List ℤ :=
  (db.filter fun r => match r.raw_text with
    | Option.some t => decide (t ≠ []) && decide (value_key ∈ extract_keywords t)
    | Option.none => false).map Receipt.id

/-- `SearchAlgorithms.hash_search` (an empty id list is exactly the
"key absent from the index" case of the source). -/
def hash_search (db : List Receipt) (field value : Str) : List Receipt :=
  let value_key := strLower value
  let receipt_ids :=
    if field = "vendor".toList then vendor_ids db value_key
    else if field = "category".toList then category_ids db value_key
    else if field = "keyword".toList then keyword_ids db value_key
    else []
  if receipt_ids ≠ [] then db.filter (fun r => decide (r.id ∈ receipt_ids)) else []

/-- SQL `col ILIKE '%kw%'` on a nullable column. -/
def ilike (col : Option Str) (kw : Str) : Bool :=
  match col with
  | Option.some s => containsSub (strLower kw) (strLower s)
  | Option.none => false

/-- The dict-comprehension dedup of `keyword_search`: the first occurrence
of an id keeps its position, a repeated id overwrites the stored record. -/
def dedup_by_id (l : List Receipt) : List Receipt :=
  l.foldl (fun acc r =>
    if acc.any (fun x => x.id = r.id) then
      acc.map (fun x => if x.id = r.id then r else x)
    else acc ++ [r]) []

/-- `SearchAlgorithms.keyword_search`: hash-index hits, then the SQL
`ILIKE` scan over vendor, raw text and category, deduplicated by id. -/
def keyword_search (db : List Receipt) (keyword : Str) : List Receipt :=
  let hash_results := hash_search db "keyword".toList (strLower keyword)
  let sql_results := db.filter fun r =>
    ilike r.vendor keyword || ilike r.raw_text keyword || ilike r.category keyword
  dedup_by_id (hash_results ++ sql_results)

/-- `SearchAlgorithms.pattern_search`.  The `re` engine is abstracted:
`re_compile` models `re.compile(pattern, re.IGNORECASE)`, returning
`none` exactly when the pattern raises `re.error` and otherwise the
compiled case-insensitive `search` predicate on strings. -/
def pattern_search (db : List Receipt) (re_compile : Str → Option (Str → Bool))
    (field : Str) (pattern : Str) : List Receipt :=
  match re_compile pattern with
  | Option.some regex_search =>
      db.filter fun receipt =>
        match getField receipt field with
        | Option.some field_value => truthy field_value && regex_search (pyStr field_value)
        | Option.none => false
  | Option.none => keyword_search db pattern

/-- `SearchAlgorithms.fuzzy_search`: score every (truthy) field value
against the query, keep scores at or above the threshold, stable-sort by
similarity descending, return the records. -/
def fuzzy_search (db : List Receipt) (field : Str) (value : Str) (threshold : ℚ) :
    List Receipt :=
  let results := db.filterMap fun receipt =>
    match getField receipt field with
    | Option.some field_value =>
        if truthy field_value then
          if threshold ≤ calculate_similarity (strLower (pyStr field_value)) (strLower value)
          then Option.some (receipt,
            calculate_similarity (strLower (pyStr field_value)) (strLower value))
          else Option.none
        else Option.none
    | Option.none => Option.none
  (results.insertionSort (fun x y => y.2 ≤ x.2)).map Prod.fst

end SearchEngine

/-! ## Correctness of the similarity utility -/

section SimilarityProofs

/-- Textbook Levenshtein distance with unit costs, peeling first
characters (the reference definition the DP matrix is compared with). -/
def levSpec : Str → Str → ℕ
  | [], ys => ys.length
  | x :: xs, [] => (x :: xs).length
  | x :: xs, y :: ys =>
    min (levSpec xs (y :: ys) + 1)
      (min (levSpec (x :: xs) ys + 1) (levSpec xs ys + (if x = y then 0 else 1)))
termination_by a b => a.length + b.length

theorem levSpec_nil_right : ∀ (a : Str), levSpec a [] = a.length := by
  intro a
  match a with
  | [] => simp [levSpec]
  | x :: xs => simp [levSpec]

theorem levSpec_nil_left : ∀ (b : Str), levSpec [] b = b.length := by
  intro b
  cases b <;> simp [levSpec]

theorem levSpec_self : ∀ (a : Str), levSpec a a = 0 := by
  intro a
  induction a with
  | nil => simp [levSpec]
  | cons x xs ih =>
    rw [levSpec]
    simp [ih]

/-- The DP matrix agrees with the textbook distance on reversed prefixes:
`matrix[i][j]` is the edit distance between the first `i` characters of
`str1` and the first `j` characters of `str2`. -/
theorem levMatrix_eq_levSpec (str1 str2 : Str) :
    ∀ (n i j : ℕ), i + j ≤ n → i ≤ str1.length → j ≤ str2.length →
      levMatrix str1 str2 i j = levSpec (str1.take i).reverse (str2.take j).reverse := by
  intro n
  induction n with
  | zero =>
    intro i j h _ _
    have hi : i = 0 := by omega
    have hj : j = 0 := by omega
    subst hi hj
    simp [levMatrix, levSpec]
  | succ n ih =>
    intro i j h hi hj
    match i, j with
    | i, 0 =>
      simp only [levMatrix, List.take_zero, List.reverse_nil, levSpec_nil_right,
        List.length_reverse, List.length_take]
      omega
    | 0, j + 1 =>
      simp only [levMatrix, List.take_zero, List.reverse_nil, levSpec_nil_left,
        List.length_reverse, List.length_take]
      omega
    | i + 1, j + 1 =>
      have hi1 : i < str1.length := by omega
      have hj1 : j < str2.length := by omega
      have ht1 : (str1.take (i + 1)).reverse = str1[i] :: (str1.take i).reverse := by
        rw [List.take_succ]
        simp [List.getElem?_eq_getElem hi1]
      have ht2 : (str2.take (j + 1)).reverse = str2[j] :: (str2.take j).reverse := by
        rw [List.take_succ]
        simp [List.getElem?_eq_getElem hj1]
      have e1 := ih i (j + 1) (by omega) (by omega) hj
      have e2 := ih (i + 1) j (by omega) hi (by omega)
      have e3 := ih i j (by omega) (by omega) (by omega)
      have hg1 : str1.getD i ' ' = str1[i] := by
        rw [List.getD_eq_getElem?_getD, List.getElem?_eq_getElem hi1]
        rfl
      have hg2 : str2.getD j ' ' = str2[j] := by
        rw [List.getD_eq_getElem?_getD, List.getElem?_eq_getElem hj1]
        rfl
      rw [ht1, ht2]
      show levMatrix str1 str2 (i + 1) (j + 1) = _
      rw [levMatrix, levSpec]
      rw [← ht1, ← ht2, ← e1, ← e2, ← e3, hg1, hg2]

theorem levMatrix_full (str1 str2 : Str) :
    levMatrix str1 str2 str1.length str2.length = levSpec str1.reverse str2.reverse := by
  rw [levMatrix_eq_levSpec str1 str2 (str1.length + str2.length) _ _ le_rfl le_rfl le_rfl,
    List.take_length, List.take_length]

/-- The value of `_calculate_similarity` whenever at least one string is
non-empty: exactly `1 − distance / max(len1, len2)`. -/
theorem similarity_formula (str1 str2 : Str) (h : ¬ (str1 = [] ∧ str2 = [])) :
    calculate_similarity str1 str2 =
      1 - (levMatrix str1 str2 str1.length str2.length : ℚ) /
        ((max str1.length str2.length : ℕ) : ℚ) := by
  unfold calculate_similarity
  by_cases h1 : str1 = [] ∨ str2 = []
  · rw [if_pos h1]
    rcases h1 with h1 | h1
    · subst h1
      have hs2 : str2 ≠ [] := fun hh => h ⟨rfl, hh⟩
      have hlen : str2.length ≠ 0 := fun hh => hs2 (List.length_eq_zero.mp hh)
      have hm : levMatrix [] str2 0 str2.length = str2.length := by
        cases hl : str2.length with
        | zero => simp [levMatrix]
        | succ m => simp [levMatrix]
      simp only [List.length_nil, hm, Nat.zero_max]
      have hq : ((str2.length : ℕ) : ℚ) ≠ 0 := by exact_mod_cast hlen
      rw [div_self hq]
      norm_num
    · subst h1
      have hs1 : str1 ≠ [] := fun hh => h ⟨hh, rfl⟩
      have hlen : str1.length ≠ 0 := fun hh => hs1 (List.length_eq_zero.mp hh)
      have hm : levMatrix str1 [] str1.length 0 = str1.length := by
        simp [levMatrix]
      simp only [List.length_nil, hm, Nat.max_zero]
      have hq : ((str1.length : ℕ) : ℚ) ≠ 0 := by exact_mod_cast hlen
      rw [div_self hq]
      norm_num
  · rw [if_neg h1]
    push_neg at h1
    have l1 : ¬ (str1.length = 0) := fun hh => h1.1 (List.length_eq_zero.mp hh)
    have l2 : ¬ (str2.length = 0) := fun hh => h1.2 (List.length_eq_zero.mp hh)
    simp only [if_neg l1, if_neg l2]

/-- An exact (non-empty) match scores similarity 1. -/
theorem calculate_similarity_self (s : Str) (h : s ≠ []) :
    calculate_similarity s s = 1 := by
  rw [similarity_formula s s (fun hh => h hh.1), levMatrix_full, levSpec_self]
  simp

end SimilarityProofs

/-! ## Claim theorems for the similarity utility -/

/-! ## Decimal rendering lemmas (for the string form of numbers) -/

section StringProofs

theorem natDigitsAux_eq (fuel n : ℕ) (h : n ≤ fuel) :
    natDigitsAux fuel n = Nat.digits 10 n := by
  induction fuel generalizing n with
  | zero =>
    have : n = 0 := by omega
    subst this
    simp [natDigitsAux]
  | succ fuel ih =>
    match n with
    | 0 => simp [natDigitsAux]
    | n + 1 =>
      have hdiv : (n + 1) / 10 < n + 1 := Nat.div_lt_self (by omega) (by norm_num)
      conv_rhs => rw [Nat.digits_def' (by norm_num : (1:ℕ) < 10) (by omega : 0 < n + 1)]
      rw [natDigitsAux, ih ((n + 1) / 10) (by omega)]

theorem natDigits_eq (n : ℕ) : natDigits n = Nat.digits 10 n := natDigitsAux_eq n n le_rfl

theorem dChar_toLower (d : ℕ) (h : d < 10) : Char.toLower (dChar d) = dChar d := by
  interval_cases d <;> decide

theorem map_toLower_natRepr (n : ℕ) : (natRepr n).map Char.toLower = natRepr n := by
  unfold natRepr
  split
  · decide
  · rename_i hn
    have hmem : ∀ c ∈ (natDigits n).reverse.map dChar, Char.toLower c = c := by
      intro c hc
      obtain ⟨d, hd, rfl⟩ := List.mem_map.mp hc
      have hd10 : d < 10 := by
        rw [natDigits_eq] at hd
        exact Nat.digits_lt_base (by norm_num) (List.mem_reverse.mp hd)
      exact dChar_toLower d hd10
    rw [List.map_congr_left hmem]
    simp

theorem natRepr_ne_single_zero {n : ℕ} (h : n ≠ 0) : natRepr n ≠ ['0'] := by
  unfold natRepr
  rw [if_neg h, natDigits_eq]
  intro heq
  have hlen : (Nat.digits 10 n).length = 1 := by
    have := congrArg List.length heq
    simpa using this
  obtain ⟨d, hd2⟩ := List.length_eq_one.mp hlen
  have hchar : dChar d = '0' := by
    rw [hd2] at heq
    simpa using heq
  have hdlt : d < 10 := Nat.digits_lt_base (by norm_num) (hd2 ▸ List.mem_singleton_self d)
  have hd0 : d = 0 := by
    interval_cases d <;> simp_all [dChar]
  have hn : n = d := by
    have hof := Nat.ofDigits_digits 10 n
    rw [hd2] at hof
    simpa [Nat.ofDigits] using hof.symm
  exact h (by omega)

theorem natRepr_length_pos (n : ℕ) : 1 ≤ (natRepr n).length := by
  unfold natRepr
  split
  · simp
  · rename_i hn
    simp only [List.length_map, List.length_reverse, natDigits_eq]
    have hne : Nat.digits 10 n ≠ [] := Nat.digits_ne_nil_iff_ne_zero.mpr hn
    have := List.length_pos.mpr hne
    omega

theorem strLower_ratRepr (q : ℚ) : strLower (ratRepr q) = ratRepr q := by
  unfold ratRepr strLower
  rw [List.map_append, List.map_append, map_toLower_natRepr]
  have h1 : List.map Char.toLower (if q < 0 then ['-'] else []) =
      (if q < 0 then ['-'] else []) := by
    split <;> decide
  have h2 : List.map Char.toLower (if q.den = 1 then [] else '/' :: natRepr q.den) =
      (if q.den = 1 then [] else '/' :: natRepr q.den) := by
    split
    · decide
    · rw [List.map_cons, map_toLower_natRepr]
      have hsl : Char.toLower '/' = '/' := by decide
      rw [hsl]
  rw [h1, h2]

theorem ratRepr_zero : ratRepr 0 = ['0'] := by decide

theorem ratRepr_ne_zero_repr {q : ℚ} (h : q ≠ 0) : ratRepr q ≠ ['0'] := by
  unfold ratRepr
  rcases lt_trichotomy q 0 with hq | hq | hq
  · rw [if_pos hq, List.singleton_append]
    intro heq
    injection heq with h1 _
    exact absurd h1 (by decide)
  · exact absurd hq h
  · rw [if_neg (not_lt.mpr (le_of_lt hq)), List.nil_append]
    by_cases hden : q.den = 1
    · rw [if_pos hden, List.append_nil]
      apply natRepr_ne_single_zero
      have hnum : q.num ≠ 0 := Rat.num_ne_zero.mpr h
      simpa using hnum
    · rw [if_neg hden]
      intro heq
      have hlen := congrArg List.length heq
      have h1 := natRepr_length_pos q.num.natAbs
      have h2 := natRepr_length_pos q.den
      simp at hlen
      omega

theorem strLower_ratRepr_ne_zero_sym {q : ℚ} (h : q ≠ 0) :
    strLower (ratRepr q) ≠ strLower (ratRepr 0) := by
  rw [strLower_ratRepr, strLower_ratRepr]
  rw [ratRepr_zero]
  exact ratRepr_ne_zero_repr h

end StringProofs

/-- A plain record for building the concrete counterexamples. -/
def baseReceipt : Receipt :=
  ⟨1, "r.txt".toList, "txt".toList, ⟨2024, 1, 1⟩, Option.none, Option.none,
   Option.none, Option.none, Option.none, Option.none, "processed".toList, Option.none⟩

def zeroAmountReceipt : Receipt := { baseReceipt with id := 2, amount := Option.some 0 }

def emptyVendorReceipt : Receipt := { baseReceipt with id := 3, vendor := Option.some [] }

theorem getField_amount (r : Receipt) :
    getField r "amount".toList =
      Option.some (match r.amount with
        | Option.none => PyVal.none
        | Option.some q => PyVal.num q) := rfl

/-- **C10.** `linear_search` only ever returns records whose field value
is truthy (non-`None`, non-zero, non-empty); in particular
`linear_search("amount", 0)` returns the empty list whatever the stored
records are, because an amount of `0` is falsy and a non-zero amount has
a different string form than `"0"`. -/
theorem linear_search_requires_truthy_value :
    (∀ (db : List Receipt) (field : Str) (value : PyVal) (r : Receipt),
      r ∈ linear_search db field value →
      ∃ v, getField r field = Option.some v ∧ truthy v = true) ∧
    (∀ db : List Receipt, linear_search db "amount".toList (PyVal.num 0) = []) := by
  constructor
  · intro db field value r hr
    obtain ⟨-, hpred⟩ := List.mem_filter.mp hr
    cases hgf : getField r field with
    | none => rw [hgf] at hpred; simp at hpred
    | some v =>
      rw [hgf] at hpred
      have := (Bool.and_eq_true _ _).mp hpred
      exact ⟨v, rfl, this.1⟩
  · intro db
    unfold linear_search
    rw [List.filter_eq_nil_iff]
    intro r _
    rw [getField_amount]
    cases hra : r.amount with
    | none => simp [truthy]
    | some q =>
      by_cases hq : q = 0
      · subst hq
        simp [truthy]
      · simp only [truthy, pyStr, Bool.and_eq_true, decide_eq_true_eq, not_and]
        intro _
        exact strLower_ratRepr_ne_zero_sym hq

/-- **C8 counterexample.** `range_search` invoked with a field outside
{amount, transaction_date, upload_date} applies no filter at all: with one
stored record and field `"vendor"` the whole collection comes back, not
the empty result the claim states. -/
theorem range_search_unknown_field_cex :
    range_search [baseReceipt] "vendor".toList (PyVal.num 0) (PyVal.num 100) =
      [baseReceipt] ∧
    range_search [baseReceipt] "vendor".toList (PyVal.num 0) (PyVal.num 100) ≠ [] := by
  refine ⟨rfl, ?_⟩
  intro h
  exact List.cons_ne_nil baseReceipt [] h

/-- **C8** (amended).  On an unsupported field name `range_search` returns
the entire collection unchanged (the query is returned with no filter
applied) and does not raise; on each of the three supported fields it
returns exactly the records whose (non-NULL) field value lies within the
inclusive bounds. -/
theorem range_search_fields :
    (∀ (db : List Receipt) (field : Str) (min_value max_value : PyVal),
      field ≠ "amount".toList → field ≠ "transaction_date".toList →
      field ≠ "upload_date".toList →
      range_search db field min_value max_value = db) ∧
    (∀ (db : List Receipt) (min_value max_value : PyVal) (r : Receipt),
      r ∈ range_search db "amount".toList min_value max_value ↔
        r ∈ db ∧ ∃ a, r.amount = Option.some a ∧
          pvLe min_value (PyVal.num a) = true ∧ pvLe (PyVal.num a) max_value = true) ∧
    (∀ (db : List Receipt) (min_value max_value : PyVal) (r : Receipt),
      r ∈ range_search db "transaction_date".toList min_value max_value ↔
        r ∈ db ∧ ∃ d, r.transaction_date = Option.some d ∧
          pvLe min_value (PyVal.date d) = true ∧ pvLe (PyVal.date d) max_value = true) ∧
    (∀ (db : List Receipt) (min_value max_value : PyVal) (r : Receipt),
      r ∈ range_search db "upload_date".toList min_value max_value ↔
        r ∈ db ∧ pvLe min_value (PyVal.date r.upload_date) = true ∧
          pvLe (PyVal.date r.upload_date) max_value = true) := by
  refine ⟨?_, ?_, ?_, ?_⟩
  · intro db field b1 b2 h1 h2 h3
    unfold range_search
    rw [if_neg h1, if_neg h2, if_neg h3]
  · intro db b1 b2 r
    unfold range_search
    rw [if_pos rfl, List.mem_filter]
    constructor
    · rintro ⟨hdb, hp⟩
      cases hra : r.amount with
      | none => rw [hra] at hp; simp at hp
      | some a =>
        rw [hra] at hp
        have h2 := (Bool.and_eq_true _ _).mp hp
        exact ⟨hdb, a, rfl, h2.1, h2.2⟩
    · rintro ⟨hdb, a, hra, h1, h2⟩
      refine ⟨hdb, ?_⟩
      rw [hra]
      simp [h1, h2]
  · intro db b1 b2 r
    unfold range_search
    rw [if_neg (by decide), if_pos rfl, List.mem_filter]
    constructor
    · rintro ⟨hdb, hp⟩
      cases hrd : r.transaction_date with
      | none => rw [hrd] at hp; simp at hp
      | some d =>
        rw [hrd] at hp
        have h2 := (Bool.and_eq_true _ _).mp hp
        exact ⟨hdb, d, rfl, h2.1, h2.2⟩
    · rintro ⟨hdb, d, hrd, h1, h2⟩
      refine ⟨hdb, ?_⟩
      rw [hrd]
      simp [h1, h2]
  · intro db b1 b2 r
    unfold range_search
    rw [if_neg (by decide), if_neg (by decide), if_pos rfl, List.mem_filter]
    constructor
    · rintro ⟨hdb, hp⟩
      have h2 := (Bool.and_eq_true _ _).mp hp
      exact ⟨hdb, h2.1, h2.2⟩
    · rintro ⟨hdb, h1, h2⟩
      exact ⟨hdb, by simp [h1, h2]⟩

/-- **C7 counterexample.** A record whose vendor is the empty string is
skipped by `pattern_search` even when the (valid) pattern matches every
string, including the record's string form — the falsy-value guard drops
it, so "returns the records whose field's string form matches" fails as
stated. -/
theorem pattern_search_falsy_value_cex :
    pattern_search [emptyVendorReceipt]
      (fun _ => Option.some (fun _ => true)) "vendor".toList "a*".toList = [] ∧
    (fun _ : Str => true) (pyStr (PyVal.str [])) = true ∧
    getField emptyVendorReceipt "vendor".toList = Option.some (PyVal.str []) :=
  ⟨rfl, rfl, rfl⟩

/-- **C7** (amended).  When the pattern does not compile (`re.error`),
`pattern_search` returns exactly `keyword_search(pattern)` and never
raises; when it compiles, the result is exactly the records whose named
field exists, holds a truthy value, and whose string form the compiled
case-insensitive pattern matches. -/
theorem pattern_search_fallback_and_matches :
    (∀ (db : List Receipt) (re_compile : Str → Option (Str → Bool)) (field pattern : Str),
      re_compile pattern = Option.none →
      pattern_search db re_compile field pattern = keyword_search db pattern) ∧
    (∀ (db : List Receipt) (re_compile : Str → Option (Str → Bool)) (field pattern : Str)
      (m : Str → Bool), re_compile pattern = Option.some m →
      ∀ r : Receipt, r ∈ pattern_search db re_compile field pattern ↔
        r ∈ db ∧ ∃ v, getField r field = Option.some v ∧ truthy v = true ∧
          m (pyStr v) = true) := by
  constructor
  · intro db rc field pattern h
    simp only [pattern_search, h]
  · intro db rc field pattern m h r
    simp only [pattern_search, h, List.mem_filter]
    constructor
    · rintro ⟨hdb, hp⟩
      cases hgf : getField r field with
      | none => rw [hgf] at hp; simp at hp
      | some v =>
        rw [hgf] at hp
        have h2 := (Bool.and_eq_true _ _).mp hp
        exact ⟨hdb, v, rfl, h2.1, h2.2⟩
    · rintro ⟨hdb, v, hgf, h1, h2⟩
      refine ⟨hdb, ?_⟩
      rw [hgf]
      simp [h1, h2]

/-- The similarity score `fuzzy_search` attaches to a record of the
collection. -/
def simOf (field value : Str) (r : Receipt) : ℚ :=
  match getField r field with
  | Option.some v => calculate_similarity (strLower (pyStr v)) (strLower value)
  | Option.none => 0

theorem fuzzy_entry_eq_some {field value : Str} {threshold : ℚ} {a : Receipt}
    {p : Receipt × ℚ}
    (h : (match getField a field with
      | Option.some field_value =>
          if truthy field_value then
            if threshold ≤ calculate_similarity (strLower (pyStr field_value)) (strLower value)
            then Option.some (a,
              calculate_similarity (strLower (pyStr field_value)) (strLower value))
            else Option.none
          else Option.none
      | Option.none => Option.none) = Option.some p) :
    p.1 = a ∧ p.2 = simOf field value a ∧
      ∃ v, getField a field = Option.some v ∧ truthy v = true ∧ threshold ≤ p.2 := by
  cases hgf : getField a field with
  | none => rw [hgf] at h; simp at h
  | some v =>
    rw [hgf] at h
    dsimp only at h
    by_cases ht : truthy v
    · rw [if_pos ht] at h
      by_cases hs : threshold ≤ calculate_similarity (strLower (pyStr v)) (strLower value)
      · rw [if_pos hs] at h
        injection h with h2
        subst h2
        exact ⟨rfl, by simp [simOf, hgf], v, rfl, ht, hs⟩
      · rw [if_neg hs] at h
        simp at h
    · rw [if_neg ht] at h
      simp at h

theorem fuzzy_mem_iff (db : List Receipt) (field value : Str) (threshold : ℚ)
    (r : Receipt) :
    r ∈ fuzzy_search db field value threshold ↔
      r ∈ db ∧ ∃ v, getField r field = Option.some v ∧ truthy v = true ∧
        threshold ≤ calculate_similarity (strLower (pyStr v)) (strLower value) := by
  unfold fuzzy_search
  rw [List.mem_map]
  constructor
  · rintro ⟨p, hp, rfl⟩
    obtain ⟨a, hadb, hfa⟩ := List.mem_filterMap.mp ((List.mem_insertionSort _).mp hp)
    obtain ⟨h1, h2, v, hv, ht, hs⟩ := fuzzy_entry_eq_some hfa
    rw [h2] at hs
    simp only [simOf, hv] at hs
    rw [h1]
    exact ⟨hadb, v, hv, ht, hs⟩
  · rintro ⟨hdb, v, hv, ht, hs⟩
    refine ⟨(r, calculate_similarity (strLower (pyStr v)) (strLower value)), ?_, rfl⟩
    apply (List.mem_insertionSort _).mpr
    apply List.mem_filterMap.mpr
    refine ⟨r, hdb, ?_⟩
    rw [hv]
    dsimp only
    rw [if_pos ht, if_pos hs]

/-- **C3 counterexample.** A record whose amount is 0 has the string form
`"0"`, which matches the query `"0"` with similarity 1.0 ≥ threshold 1.0
— yet `fuzzy_search` returns nothing, because an amount of 0 is falsy and
is skipped before scoring. -/
theorem fuzzy_search_falsy_value_cex :
    fuzzy_search [zeroAmountReceipt] "amount".toList "0".toList 1 = [] ∧
    calculate_similarity (strLower (pyStr (PyVal.num 0))) (strLower "0".toList) = 1 ∧
    getField zeroAmountReceipt "amount".toList = Option.some (PyVal.num 0) := by
  refine ⟨rfl, ?_, rfl⟩
  have h0 : strLower (pyStr (PyVal.num 0)) = ['0'] := by
    show strLower (ratRepr 0) = ['0']
    rw [strLower_ratRepr, ratRepr_zero]
  have h1 : strLower "0".toList = ['0'] := by decide
  rw [h0, h1]
  exact calculate_similarity_self ['0'] (by decide)

/-- **C3** (amended).  `fuzzy_search(field, value, t)` returns exactly the
records whose field exists and holds a truthy value whose lower-cased
string form has similarity ≥ t to the lower-cased query; the result is
ordered by similarity descending; if t exceeds every attainable
similarity the result is empty; and a record whose truthy value is an
exact (case-insensitive, non-empty) string match has similarity 1.0 and
is returned even at threshold 1.0. -/
theorem fuzzy_search_matches_and_ordering :
    (∀ (db : List Receipt) (field value : Str) (threshold : ℚ) (r : Receipt),
      r ∈ fuzzy_search db field value threshold ↔
        r ∈ db ∧ ∃ v, getField r field = Option.some v ∧ truthy v = true ∧
          threshold ≤ calculate_similarity (strLower (pyStr v)) (strLower value)) ∧
    (∀ (db : List Receipt) (field value : Str) (threshold : ℚ),
      (fuzzy_search db field value threshold).Pairwise
        (fun r1 r2 => simOf field value r2 ≤ simOf field value r1)) ∧
    (∀ (db : List Receipt) (field value : Str) (threshold : ℚ),
      (∀ r ∈ db, ∀ v, getField r field = Option.some v → truthy v = true →
        calculate_similarity (strLower (pyStr v)) (strLower value) < threshold) →
      fuzzy_search db field value threshold = []) ∧
    (∀ (db : List Receipt) (field value : Str) (r : Receipt) (v : PyVal),
      r ∈ db → getField r field = Option.some v → truthy v = true →
      strLower (pyStr v) = strLower value → strLower value ≠ [] →
      r ∈ fuzzy_search db field value 1) := by
  refine ⟨fuzzy_mem_iff, ?_, ?_, ?_⟩
  · intro db field value threshold
    unfold fuzzy_search
    rw [List.pairwise_map]
    have hsorted : ∀ L : List (Receipt × ℚ),
        (List.insertionSort (fun x y : Receipt × ℚ => y.2 ≤ x.2) L).Pairwise
          (fun x y : Receipt × ℚ => y.2 ≤ x.2) := by
      intro L
      haveI : IsTotal (Receipt × ℚ) (fun x y => y.2 ≤ x.2) := ⟨fun a b => le_total b.2 a.2⟩
      haveI : IsTrans (Receipt × ℚ) (fun x y => y.2 ≤ x.2) :=
        ⟨fun _ _ _ h1 h2 => le_trans h2 h1⟩
      exact List.sorted_insertionSort _ _
    refine (hsorted _).imp_of_mem ?_
    intro p q hp hq hpq
    obtain ⟨a, -, hfa⟩ := List.mem_filterMap.mp ((List.mem_insertionSort _).mp hp)
    obtain ⟨b, -, hfb⟩ := List.mem_filterMap.mp ((List.mem_insertionSort _).mp hq)
    obtain ⟨hpa, hp3, -⟩ := fuzzy_entry_eq_some hfa
    obtain ⟨hqb, hq3, -⟩ := fuzzy_entry_eq_some hfb
    rw [hpa, hqb, ← hp3, ← hq3]
    exact hpq
  · intro db field value threshold hall
    rw [List.eq_nil_iff_forall_not_mem]
    intro r hr
    obtain ⟨hdb, v, hv, ht, hs⟩ := (fuzzy_mem_iff db field value threshold r).mp hr
    exact absurd hs (not_le.mpr (hall r hdb v hv ht))
  · intro db field value r v hdb hv ht heq hne
    apply (fuzzy_mem_iff db field value 1 r).mpr
    refine ⟨hdb, v, hv, ht, ?_⟩
    rw [heq, calculate_similarity_self _ hne]

/-- **C2 counterexample.** On two empty strings the code returns 0.0 (the
leading falsy-string guard fires), not the 1.0 the claim states. -/
theorem calculate_similarity_empty_empty_is_zero :
    calculate_similarity [] [] = 0 ∧ ¬ calculate_similarity [] [] = 1 := by
  constructor
  · simp [calculate_similarity]
  · simp [calculate_similarity]

/-- **C2** (amended).  For every pair of strings not both empty, the
similarity is `1 − levenshteinDistance(s1, s2) / max(|s1|, |s2|)`, where
the distance is the unit-cost edit distance computed by the DP matrix
(`levMatrix`, shown elsewhere to agree with the textbook recurrence
`levSpec`); when both strings are empty the similarity is 0.0, not 1.0. -/
theorem calculate_similarity_formula_except_both_empty :
    (∀ str1 str2 : Str, ¬ (str1 = [] ∧ str2 = []) →
      calculate_similarity str1 str2 =
        1 - (levMatrix str1 str2 str1.length str2.length : ℚ) /
          ((max str1.length str2.length : ℕ) : ℚ)) ∧
    calculate_similarity [] [] = 0 :=
  ⟨similarity_formula, by simp [calculate_similarity]⟩


/-! ## Aggregation engine (`src/algorithms/aggregation_algorithms.py`)

Only the two time-series functions the claims address are modelled:
`monthly_spending_trends` (with `_add_moving_averages`) and
`quarterly_analysis` (with `_add_yoy_growth`).  The `defaultdict`
accumulation is an association list in first-appearance order;
`sorted(....items())` is a stable sort on the string keys (Python compares
strings lexicographically by code point, as the `List Char` order does). -/

section AggregationEngine

/-- One `defaultdict` step: add an amount to a key's running total and
count, appending the key on first appearance. -/
def upsert (acc : List (Str × ℚ × ℕ)) (key : Str) (amount : ℚ) : List (Str × ℚ × ℕ) :=
  if acc.any (fun e => e.1 = key) then
    acc.map (fun e => if e.1 = key then (e.1, e.2.1 + amount, e.2.2 + 1) else e)
  else acc ++ [(key, amount, 1)]

/-- `sorted(dict.items())` on string keys. -/
def sortByKey (l : List (Str × ℚ × ℕ)) : List (Str × ℚ × ℕ) :=
  l.insertionSort (fun x y => x.1 ≤ y.1)

/-- The month key `f"{date.year}-{date.month:02d}"`. -/
def monthKey (d : DateTime) : Str := natRepr d.year ++ '-' :: pad2 d.month

/-- The grouping loop of `monthly_spending_trends`: records with a truthy
`transaction_date` and a truthy (non-`None`, non-zero) amount, bucketed by
month key. -/
def accumMonthly (receipts : List Receipt) : List (Str × ℚ × ℕ) :=
  receipts.foldl (fun acc r =>
    match r.transaction_date, r.amount with
    | Option.some d, Option.some a =>
        if a ≠ 0 then upsert acc (monthKey d) a else acc
    | _, _ => acc) []

/-- `year, month = map(int, month_key.split('-'))`. -/
def parseMonthKey (key : Str) : ℕ × ℕ :=
  match splitOnChar '-' key with
  | [y, m] => (parseNat y, parseNat m)
  | _ => (0, 0)

/-- `calendar.month_name`. -/
def month_name_table : List Str :=
  ["", "January", "February", "March", "April", "May", "June", "July",
   "August", "September", "October", "November", "December"].map String.toList

/-- One month entry of `monthly_spending_trends`; the moving-average keys
are absent (`none`) until `_add_moving_averages` fills them. -/
structure TrendPoint where
  month : Str
  month_name : Str
  total_amount : ℚ
  transaction_count : ℕ
  average_amount : ℚ
  moving_avg_amount : Option ℚ
  moving_avg_count : Option ℚ
deriving DecidableEq

instance : Inhabited TrendPoint := ⟨⟨[], [], 0, 0, 0, Option.none, Option.none⟩⟩

/-- The sorted per-month entries of `monthly_spending_trends` before the
moving-average pass. -/
def monthly_trends_base (receipts : List Receipt) : List TrendPoint :=
  (sortByKey (accumMonthly receipts)).map fun e =>
    { month := e.1,
      month_name := month_name_table.getD (parseMonthKey e.1).2 [] ++
        ' ' :: natRepr (parseMonthKey e.1).1,
      total_amount := pyRound e.2.1 2,
      transaction_count := e.2.2,
      average_amount := pyRound (e.2.1 / (e.2.2 : ℚ)) 2,
      moving_avg_amount := Option.none,
      moving_avg_count := Option.none }

/-- `AggregationAlgorithms._add_moving_averages`: below `window` points
the pass returns immediately; otherwise every index `i` receives the mean
over `trends[max(0, i-window+1) : i+1]` when that slice has at least two
points, and the point's own total/count otherwise. -/
def add_moving_averages (trends : List TrendPoint) (window : ℕ) : List TrendPoint :=
  if trends.length < window then trends
  else
    (List.range trends.length).map fun i =>
      let t := trends.getD i default
      let start_idx := i + 1 - window
      let window_data := (trends.drop start_idx).take (i + 1 - start_idx)
      if 2 ≤ window_data.length then
        { t with
          moving_avg_amount := Option.some
            (pyRound ((window_data.map (fun p => p.total_amount)).sum /
              (window_data.length : ℚ)) 2),
          moving_avg_count := Option.some
            (pyRound ((window_data.map (fun p => (p.transaction_count : ℚ))).sum /
              (window_data.length : ℚ)) 1) }
      else
        { t with moving_avg_amount := Option.some t.total_amount,
                 moving_avg_count := Option.some (t.transaction_count : ℚ) }

/-- `AggregationAlgorithms.monthly_spending_trends`. -/
def monthly_spending_trends (receipts : List Receipt) : List TrendPoint :=
  if receipts = [] then []
  else add_moving_averages (monthly_trends_base receipts) 3

/-- The quarter key `f"{date.year}-Q{(date.month - 1) // 3 + 1}"`. -/
def quarterKey (d : DateTime) : Str :=
  natRepr d.year ++ '-' :: 'Q' :: natRepr ((d.month - 1) / 3 + 1)

/-- The grouping loop of `quarterly_analysis`. -/
def accumQuarterly (receipts : List Receipt) : List (Str × ℚ × ℕ) :=
  receipts.foldl (fun acc r =>
    match r.transaction_date, r.amount with
    | Option.some d, Option.some a =>
        if a ≠ 0 then upsert acc (quarterKey d) a else acc
    | _, _ => acc) []

/-- `year, quarter = quarter_key.split('-')`; `int(year)` and
`int(quarter[1])` (the digit after the `Q`). -/
def parseQuarterKey (key : Str) : ℕ × ℕ :=
  match splitOnChar '-' key with
  | [y, q] => (parseNat y, parseNat (q.drop 1))
  | _ => (0, 0)

/-- One quarter entry of `quarterly_analysis`.  `yoy_growth_rate` is
`none` while the key is absent, `some none` for an explicit `None`, and
`some (some g)` for a computed growth rate. -/
structure QuarterPoint where
  quarter : Str
  year : ℕ
  quarter_number : ℕ
  total_amount : ℚ
  transaction_count : ℕ
  average_amount : ℚ
  yoy_growth_rate : Option (Option ℚ)
deriving DecidableEq

instance : Inhabited QuarterPoint := ⟨⟨[], 0, 0, 0, 0, 0, Option.none⟩⟩

/-- The sorted per-quarter entries of `quarterly_analysis` before the
year-over-year pass. -/
def quarterly_base (receipts : List Receipt) : List QuarterPoint :=
  (sortByKey (accumQuarterly receipts)).map fun e =>
    { quarter := e.1,
      year := (parseQuarterKey e.1).1,
      quarter_number := (parseQuarterKey e.1).2,
      total_amount := pyRound e.2.1 2,
      transaction_count := e.2.2,
      average_amount := pyRound (e.2.1 / (e.2.2 : ℚ)) 2,
      yoy_growth_rate := Option.none }

/-- The (quarter-key → growth) assignments `_add_yoy_growth` makes: the
entries are grouped by quarter number, each group is stably sorted by
year, and each entry from index 1 on is compared with its predecessor. -/
def yoy_updates (qdata : List QuarterPoint) : List (Str × Option ℚ) :=
  ((qdata.map (fun i => i.quarter_number)).dedup).flatMap fun qn =>
    let group := (qdata.filter (fun i => i.quarter_number = qn)).insertionSort
      (fun x y => x.year ≤ y.year)
    (List.range group.length).filterMap fun i =>
      if i = 0 then Option.none
      else
        let current := group.getD i default
        let previous := group.getD (i - 1) default
        if 0 < previous.total_amount then
          Option.some (current.quarter,
            Option.some (pyRound ((current.total_amount - previous.total_amount) /
              previous.total_amount * 100) 2))
        else Option.some (current.quarter, Option.none)

/-- `AggregationAlgorithms._add_yoy_growth` (the list entries are mutated
in place; the main list order is unchanged). -/
def add_yoy_growth (qdata : List QuarterPoint) : List QuarterPoint :=
  qdata.map fun item =>
    match (yoy_updates qdata).lookup item.quarter with
    | Option.some g => { item with yoy_growth_rate := Option.some g }
    | Option.none => item

/-- `AggregationAlgorithms.quarterly_analysis`. -/
def quarterly_analysis (receipts : List Receipt) : List QuarterPoint :=
  if receipts = [] then []
  else add_yoy_growth (quarterly_base receipts)

/-- The general shape of a quarter key: `f"{year}-Q{quarter_number}"`. -/
def quarterGen (y q : ℕ) : Str := natRepr y ++ '-' :: 'Q' :: natRepr q

/-- Spec-side definition (amended wording): the previous available year
for a quarter entry — among the entries with the same quarter number and
a strictly earlier year, the one with the greatest year (none when no
earlier year has data for that quarter number). -/
def prev_year_entry (qdata : List QuarterPoint) (item : QuarterPoint) : Option QuarterPoint :=
  ((qdata.filter fun e =>
      e.quarter_number = item.quarter_number ∧ e.year < item.year).insertionSort
    (fun x y => x.year ≤ y.year)).getLast?

/-- Spec-side definition (amended wording) of the year-over-year growth
value of a quarter entry: absent when no earlier year has data for the
quarter number, `None` when the previous available year's total is not
positive, and otherwise the rounded growth formula taken against the
previous available year's total. -/
def yoy_spec (qdata : List QuarterPoint) (item : QuarterPoint) : Option (Option ℚ) :=
  match prev_year_entry qdata item with
  | Option.none => Option.none
  | Option.some prev =>
      if 0 < prev.total_amount then
        Option.some (Option.some (pyRound
          ((item.total_amount - prev.total_amount) / prev.total_amount * 100) 2))
      else Option.some Option.none

def janReceipt : Receipt :=
  { baseReceipt with
    id := 10
    transaction_date := Option.some ⟨2024, 1, 5⟩
    amount := Option.some 50 }

def febReceipt : Receipt :=
  { baseReceipt with
    id := 11
    transaction_date := Option.some ⟨2024, 2, 10⟩
    amount := Option.some 170 }

def q2021Receipt : Receipt :=
  { baseReceipt with
    id := 20
    transaction_date := Option.some ⟨2021, 2, 1⟩
    amount := Option.some 100 }

def q2023Receipt : Receipt :=
  { baseReceipt with
    id := 21
    transaction_date := Option.some ⟨2023, 1, 15⟩
    amount := Option.some 200 }

/-- **C4 counterexample.** With exactly two months of data (January 2024:
50, February 2024: 170) `_add_moving_averages` returns before adding any
key (`len(trends) < window`), so the second point carries no moving
average at all — not the mean `(50 + 170) / 2 = 110` the claim states. -/
theorem monthly_trends_two_months_no_moving_average_cex :
    ((monthly_spending_trends [janReceipt, febReceipt]).map
      (fun t => t.moving_avg_amount)) = [Option.none, Option.none] ∧
    ((monthly_spending_trends [janReceipt, febReceipt]).map
      (fun t => (t.total_amount, t.transaction_count))) = [(50, 1), (170, 1)] ∧
    (Option.none : Option ℚ) ≠ Option.some (pyRound ((50 + 170) / 2) 2) := by
  refine ⟨by decide, ?_, by simp⟩
  have h : ((monthly_spending_trends [janReceipt, febReceipt]).map
      (fun t => (t.total_amount, t.transaction_count))) =
      [(pyRound 50 2, 1), (pyRound 170 2, 1)] := rfl
  rw [h]
  norm_num [pyRound, roundHalfEven]

/-- **C5 counterexample.** With Q1 totals for 2021 (100) and 2023 (200)
and no 2022 data, `_add_yoy_growth` pairs the 2023 entry with the 2021
entry and records a 100% growth rate, although the prior year (2022) has
no data for that quarter number — where the claim demands null; the 2021
entry gets no growth key at all. -/
theorem quarterly_yoy_gap_year_cex :
    ((quarterly_analysis [q2021Receipt, q2023Receipt]).map
      (fun q => q.yoy_growth_rate)) = [Option.none, Option.some (Option.some 100)] ∧
    ((quarterly_analysis [q2021Receipt, q2023Receipt]).map
      (fun q => (q.year, q.quarter_number, q.total_amount))) =
      [(2021, 1, 100), (2023, 1, 200)] ∧
    (Option.some (Option.some (100 : ℚ)) ≠ Option.some (Option.none : Option ℚ)) := by
  have hb : quarterly_base [q2021Receipt, q2023Receipt] =
      [{ quarter := "2021-Q1".toList, year := 2021, quarter_number := 1,
         total_amount := 100, transaction_count := 1, average_amount := 100,
         yoy_growth_rate := Option.none },
       { quarter := "2023-Q1".toList, year := 2023, quarter_number := 1,
         total_amount := 200, transaction_count := 1, average_amount := 200,
         yoy_growth_rate := Option.none }] := by
    have h0 : quarterly_base [q2021Receipt, q2023Receipt] =
        [{ quarter := "2021-Q1".toList, year := 2021, quarter_number := 1,
           total_amount := pyRound 100 2, transaction_count := 1,
           average_amount := pyRound (100 / ((1:ℕ):ℚ)) 2,
           yoy_growth_rate := Option.none },
         { quarter := "2023-Q1".toList, year := 2023, quarter_number := 1,
           total_amount := pyRound 200 2, transaction_count := 1,
           average_amount := pyRound (200 / ((1:ℕ):ℚ)) 2,
           yoy_growth_rate := Option.none }] := rfl
    rw [h0]
    norm_num [pyRound, roundHalfEven]
  have hq : quarterly_analysis [q2021Receipt, q2023Receipt] =
      add_yoy_growth (quarterly_base [q2021Receipt, q2023Receipt]) := rfl
  rw [hq, hb]
  have hval : pyRound ((200 - 100) / 100 * 100 : ℚ) 2 = 100 := by
    norm_num [pyRound, roundHalfEven]
  refine ⟨?_, by decide, by simp⟩
  have h2 : (add_yoy_growth
      [{ quarter := "2021-Q1".toList, year := 2021, quarter_number := 1,
         total_amount := 100, transaction_count := 1, average_amount := 100,
         yoy_growth_rate := Option.none },
       { quarter := "2023-Q1".toList, year := 2023, quarter_number := 1,
         total_amount := 200, transaction_count := 1, average_amount := 200,
         yoy_growth_rate := Option.none }]).map (fun q => q.yoy_growth_rate) =
      [Option.none, Option.some (Option.some (pyRound ((200 - 100) / 100 * 100 : ℚ) 2))] :=
    rfl
  rw [h2, hval]

end AggregationEngine

/-! ## Correctness of the moving-average pass -/

section MovingAverageProofs

theorem range_map_getD (l : List TrendPoint) :
    (List.range l.length).map (fun i => l.getD i default) = l := by
  apply List.ext_getElem
  · simp
  · intro t h1 h2
    simp only [List.getElem_map, List.getElem_range]
    rw [← elemAt_eq_getElem l t h2]
    rfl

theorem add_moving_averages_length (trends : List TrendPoint) (window : ℕ) :
    (add_moving_averages trends window).length = trends.length := by
  unfold add_moving_averages
  split
  · rfl
  · simp

theorem add_moving_averages_getD (trends : List TrendPoint) (i : ℕ)
    (hw : 3 ≤ trends.length) (hi : i < trends.length) :
    (add_moving_averages trends 3).getD i default =
      (let t := trends.getD i default
       let start_idx := i + 1 - 3
       let window_data := (trends.drop start_idx).take (i + 1 - start_idx)
       if 2 ≤ window_data.length then
        { t with
          moving_avg_amount := Option.some
            (pyRound ((window_data.map (fun p => p.total_amount)).sum /
              (window_data.length : ℚ)) 2),
          moving_avg_count := Option.some
            (pyRound ((window_data.map (fun p => (p.transaction_count : ℚ))).sum /
              (window_data.length : ℚ)) 1) }
       else
        { t with moving_avg_amount := Option.some t.total_amount,
                 moving_avg_count := Option.some (t.transaction_count : ℚ) }) := by
  unfold add_moving_averages
  rw [if_neg (by omega)]
  rw [List.getD_eq_getElem?_getD, List.getElem?_map, List.getElem?_range hi]
  rfl

theorem add_moving_averages_total (trends : List TrendPoint) (i : ℕ)
    (hw : 3 ≤ trends.length) (hi : i < trends.length) :
    ((add_moving_averages trends 3).getD i default).total_amount =
      (trends.getD i default).total_amount := by
  rw [add_moving_averages_getD trends i hw hi]
  dsimp only
  split <;> rfl

theorem add_moving_averages_count (trends : List TrendPoint) (i : ℕ)
    (hw : 3 ≤ trends.length) (hi : i < trends.length) :
    ((add_moving_averages trends 3).getD i default).transaction_count =
      (trends.getD i default).transaction_count := by
  rw [add_moving_averages_getD trends i hw hi]
  dsimp only
  split <;> rfl

theorem add_moving_averages_map_total (trends : List TrendPoint) (hw : 3 ≤ trends.length) :
    (add_moving_averages trends 3).map (fun p => p.total_amount) =
      trends.map (fun p => p.total_amount) := by
  apply List.ext_getElem
  · simp [add_moving_averages_length]
  · intro t h1 h2
    simp only [List.getElem_map]
    have ht : t < trends.length := by simpa using h2
    have ht1 : t < (add_moving_averages trends 3).length := by
      simpa [add_moving_averages_length] using ht
    rw [← elemAt_eq_getElem _ t ht1, ← elemAt_eq_getElem _ t ht]
    show ((add_moving_averages trends 3).getD t default).total_amount =
      ((trends.getD t default)).total_amount
    exact add_moving_averages_total trends t hw ht

theorem add_moving_averages_map_count (trends : List TrendPoint) (hw : 3 ≤ trends.length) :
    (add_moving_averages trends 3).map (fun p => (p.transaction_count : ℚ)) =
      trends.map (fun p => (p.transaction_count : ℚ)) := by
  apply List.ext_getElem
  · simp [add_moving_averages_length]
  · intro t h1 h2
    simp only [List.getElem_map]
    have ht : t < trends.length := by simpa using h2
    have ht1 : t < (add_moving_averages trends 3).length := by
      simpa [add_moving_averages_length] using ht
    rw [← elemAt_eq_getElem _ t ht1, ← elemAt_eq_getElem _ t ht]
    show (((add_moving_averages trends 3).getD t default).transaction_count : ℚ) =
      (((trends.getD t default)).transaction_count : ℚ)
    rw [add_moving_averages_count trends t hw ht]

theorem monthly_trends_base_no_moving_fields (receipts : List Receipt) :
    ∀ p ∈ monthly_trends_base receipts,
      p.moving_avg_amount = Option.none ∧ p.moving_avg_count = Option.none := by
  intro p hp
  unfold monthly_trends_base at hp
  obtain ⟨e, _, rfl⟩ := List.mem_map.mp hp
  exact ⟨rfl, rfl⟩

/-- **C4** (amended).  When the series has fewer than three months, the
moving-average pass returns before adding any key, so no point carries a
moving average (both fields absent) — in particular with exactly two
months the second point has none, not the mean of the two totals.  When
the series has at least three points, each point `i` carries the rounded
mean of the totals (and counts) of the last `min(3, i+1)` months when
that window has at least two points, and the point's own total (and
count) otherwise. -/
theorem monthly_trends_moving_average_window (receipts : List Receipt) :
    ((monthly_spending_trends receipts).length < 3 →
      ∀ p ∈ monthly_spending_trends receipts,
        p.moving_avg_amount = Option.none ∧ p.moving_avg_count = Option.none) ∧
    (3 ≤ (monthly_spending_trends receipts).length →
      ∀ i, i < (monthly_spending_trends receipts).length →
        (((monthly_spending_trends receipts).getD i default).moving_avg_amount =
          (if 2 ≤ min 3 (i + 1) then
            Option.some (pyRound
              ((((((monthly_spending_trends receipts).drop (i + 1 - 3)).take
                  (min 3 (i + 1))).map (fun p => p.total_amount)).sum) /
               ((min 3 (i + 1) : ℕ) : ℚ)) 2)
          else Option.some
            (((monthly_spending_trends receipts).getD i default).total_amount))) ∧
        (((monthly_spending_trends receipts).getD i default).moving_avg_count =
          (if 2 ≤ min 3 (i + 1) then
            Option.some (pyRound
              ((((((monthly_spending_trends receipts).drop (i + 1 - 3)).take
                  (min 3 (i + 1))).map (fun p => (p.transaction_count : ℚ))).sum) /
               ((min 3 (i + 1) : ℕ) : ℚ)) 1)
          else Option.some
            ((((monthly_spending_trends receipts).getD i default).transaction_count
              : ℚ))))) := by
  by_cases hemp : receipts = []
  · subst hemp
    constructor
    · intro _ p hp
      simp [monthly_spending_trends] at hp
    · intro h3
      simp [monthly_spending_trends] at h3
  · have hms : monthly_spending_trends receipts =
        add_moving_averages (monthly_trends_base receipts) 3 := by
      unfold monthly_spending_trends
      rw [if_neg hemp]
    constructor
    · intro hlen p hp
      rw [hms] at hlen hp
      rw [add_moving_averages_length] at hlen
      unfold add_moving_averages at hp
      rw [if_pos hlen] at hp
      exact monthly_trends_base_no_moving_fields receipts p hp
    · intro h3 i hi
      rw [hms] at h3 hi ⊢
      rw [add_moving_averages_length] at h3 hi
      have hwl : (((monthly_trends_base receipts).drop (i + 1 - 3)).take
          (i + 1 - (i + 1 - 3))).length = min 3 (i + 1) := by
        simp only [List.length_take, List.length_drop]
        omega
      have hidx : i + 1 - (i + 1 - 3) = min 3 (i + 1) := by omega
      simp only [List.map_take, List.map_drop]
      rw [add_moving_averages_map_total (monthly_trends_base receipts) h3,
        add_moving_averages_map_count (monthly_trends_base receipts) h3,
        add_moving_averages_total (monthly_trends_base receipts) i h3 hi,
        add_moving_averages_count (monthly_trends_base receipts) i h3 hi,
        add_moving_averages_getD (monthly_trends_base receipts) i h3 hi]
      dsimp only
      rw [apply_ite (fun t : TrendPoint => t.moving_avg_amount),
        apply_ite (fun t : TrendPoint => t.moving_avg_count)]
      dsimp only
      rw [hwl]
      simp only [List.map_take, List.map_drop]
      rw [hidx]
      exact ⟨rfl, rfl⟩

end MovingAverageProofs


/-! ## The year-over-year pass of `quarterly_analysis` -/

section YoyProofs

theorem splitOnChar_not_mem (sep : Char) (B : Str) (h : sep ∉ B) :
    splitOnChar sep B = [B] := by
  induction B with
  | nil => rfl
  | cons c rest ih =>
    have hc : ¬c = sep := fun hc => h (hc ▸ List.mem_cons_self c rest)
    have hr : splitOnChar sep rest = [rest] :=
      ih (fun hm => h (List.mem_cons_of_mem c hm))
    unfold splitOnChar
    rw [if_neg hc, hr]

theorem splitOnChar_append (sep : Char) (A B : Str) (h : sep ∉ A) :
    splitOnChar sep (A ++ sep :: B) = A :: splitOnChar sep B := by
  induction A with
  | nil =>
    show splitOnChar sep (sep :: B) = [] :: splitOnChar sep B
    simp only [splitOnChar]
    rw [if_true]
  | cons a A ih =>
    have ha : ¬a = sep := fun ha => h (ha ▸ List.mem_cons_self a A)
    have hr : splitOnChar sep (A ++ sep :: B) = A :: splitOnChar sep B :=
      ih (fun hm => h (List.mem_cons_of_mem a hm))
    show splitOnChar sep (a :: (A ++ sep :: B)) = (a :: A) :: splitOnChar sep B
    simp only [splitOnChar]
    rw [if_neg ha, hr]

theorem dChar_toNat (d : ℕ) (h : d < 10) : (dChar d).toNat = 48 + d := by
  interval_cases d <;> decide

theorem dChar_ne_dash (d : ℕ) (h : d < 10) : dChar d ≠ '-' := by
  interval_cases d <;> decide

theorem mem_natDigits_lt (n d : ℕ) (h : d ∈ natDigits n) : d < 10 := by
  rw [natDigits_eq] at h
  exact Nat.digits_lt_base (by norm_num) h

theorem dash_not_mem_natRepr (n : ℕ) : '-' ∉ natRepr n := by
  unfold natRepr
  split
  · decide
  · intro hm
    obtain ⟨d, hd, hdc⟩ := List.mem_map.mp hm
    exact dChar_ne_dash d (mem_natDigits_lt n d (List.mem_reverse.mp hd)) hdc

theorem parseNat_natRepr (n : ℕ) : parseNat (natRepr n) = n := by
  unfold parseNat natRepr
  split
  · subst n
    rfl
  · rw [List.map_map, List.map_reverse, List.reverse_reverse]
    have h1 : (natDigits n).map ((fun c => c.toNat - 48) ∘ dChar) = natDigits n := by
      have h2 : ∀ d ∈ natDigits n, ((fun c : Char => c.toNat - 48) ∘ dChar) d = d := by
        intro d hd
        show (dChar d).toNat - 48 = d
        rw [dChar_toNat d (mem_natDigits_lt n d hd)]
        omega
      rw [List.map_congr_left h2]
      exact List.map_id _
    rw [h1, natDigits_eq, Nat.ofDigits_digits]

theorem parseQuarterKey_gen (y q : ℕ) : parseQuarterKey (quarterGen y q) = (y, q) := by
  have hA : '-' ∉ natRepr y := dash_not_mem_natRepr y
  have hB : '-' ∉ 'Q' :: natRepr q := by
    intro hm
    rcases List.mem_cons.mp hm with h | h
    · exact absurd h (by decide)
    · exact dash_not_mem_natRepr q h
  unfold parseQuarterKey quarterGen
  rw [splitOnChar_append '-' (natRepr y) ('Q' :: natRepr q) hA,
    splitOnChar_not_mem '-' ('Q' :: natRepr q) hB]
  show (parseNat (natRepr y), parseNat (natRepr q)) = (y, q)
  rw [parseNat_natRepr, parseNat_natRepr]

theorem upsert_keys (acc : List (Str × ℚ × ℕ)) (k : Str) (a : ℚ) :
    (upsert acc k a).map Prod.fst =
      if acc.any (fun e => e.1 = k) then acc.map Prod.fst
      else acc.map Prod.fst ++ [k] := by
  unfold upsert
  split
  · rw [List.map_map]
    apply List.map_congr_left
    intro e _
    show (if e.1 = k then (e.1, e.2.1 + a, e.2.2 + 1) else e).1 = e.1
    split <;> rfl
  · rw [List.map_append]
    rfl

theorem upsert_keys_nodup (acc : List (Str × ℚ × ℕ)) (k : Str) (a : ℚ)
    (h : (acc.map Prod.fst).Nodup) : ((upsert acc k a).map Prod.fst).Nodup := by
  rw [upsert_keys]
  split
  · exact h
  · rename_i hany
    have hk : k ∉ acc.map Prod.fst := by
      intro hm
      obtain ⟨e, he, hek⟩ := List.mem_map.mp hm
      exact hany (List.any_eq_true.mpr ⟨e, he, by simp [hek]⟩)
    simp [List.nodup_append, h, hk]

theorem upsert_keys_shape (acc : List (Str × ℚ × ℕ)) (k : Str) (a : ℚ)
    (x : Str × ℚ × ℕ) (hx : x ∈ upsert acc k a) :
    x.1 = k ∨ x.1 ∈ acc.map Prod.fst := by
  have h1 : x.1 ∈ (upsert acc k a).map Prod.fst := List.mem_map_of_mem Prod.fst hx
  rw [upsert_keys] at h1
  split at h1
  · exact Or.inr h1
  · rcases List.mem_append.mp h1 with h | h
    · exact Or.inr h
    · exact Or.inl (List.mem_singleton.mp h)

theorem accumQuarterly_keys_nodup (receipts : List Receipt) :
    ((accumQuarterly receipts).map Prod.fst).Nodup := by
  unfold accumQuarterly
  have H : ∀ (l : List Receipt) (acc : List (Str × ℚ × ℕ)),
      (acc.map Prod.fst).Nodup →
      ((l.foldl (fun acc r =>
        match r.transaction_date, r.amount with
        | Option.some d, Option.some a =>
            if a ≠ 0 then upsert acc (quarterKey d) a else acc
        | _, _ => acc) acc).map Prod.fst).Nodup := by
    intro l
    induction l with
    | nil => intro acc h; exact h
    | cons r l ih =>
      intro acc h
      rw [List.foldl_cons]
      apply ih
      rcases r.transaction_date with _ | d <;> rcases r.amount with _ | a
      · exact h
      · exact h
      · exact h
      · dsimp only
        split
        · exact upsert_keys_nodup acc _ a h
        · exact h
  exact H receipts [] (by simp)

theorem accumQuarterly_keys_shape (receipts : List Receipt) :
    ∀ x ∈ accumQuarterly receipts, ∃ y q, x.1 = quarterGen y q := by
  unfold accumQuarterly
  have H : ∀ (l : List Receipt) (acc : List (Str × ℚ × ℕ)),
      (∀ x ∈ acc, ∃ y q, x.1 = quarterGen y q) →
      ∀ x ∈ l.foldl (fun acc r =>
        match r.transaction_date, r.amount with
        | Option.some d, Option.some a =>
            if a ≠ 0 then upsert acc (quarterKey d) a else acc
        | _, _ => acc) acc, ∃ y q, x.1 = quarterGen y q := by
    intro l
    induction l with
    | nil => intro acc h; exact h
    | cons r l ih =>
      intro acc h
      rw [List.foldl_cons]
      apply ih
      rcases r.transaction_date with _ | d <;> rcases r.amount with _ | a
      · exact h
      · exact h
      · exact h
      · dsimp only
        split
        · intro x hx
          rcases upsert_keys_shape acc (quarterKey d) a x hx with h1 | h1
          · exact ⟨d.year, (d.month - 1) / 3 + 1, h1⟩
          · obtain ⟨e, he, hex⟩ := List.mem_map.mp h1
            obtain ⟨y, q, hyq⟩ := h e he
            exact ⟨y, q, by rw [← hex, hyq]⟩
        · exact h
  exact H receipts [] (by simp)

theorem lookup_eq_none_of_forall {β : Type} (k : Str) (l : List (Str × β))
    (h : ∀ p ∈ l, p.1 ≠ k) : l.lookup k = Option.none := by
  induction l with
  | nil => rfl
  | cons p l ih =>
    obtain ⟨a, b⟩ := p
    have hp : a ≠ k := h (a, b) (List.mem_cons_self _ l)
    have hb : (k == a) = false := by
      rw [beq_eq_false_iff_ne]
      exact fun he => hp he.symm
    show List.lookup k ((a, b) :: l) = Option.none
    simp only [List.lookup]
    rw [hb]
    exact ih (fun q hq => h q (List.mem_cons_of_mem _ hq))

theorem lookup_append_or {β : Type} (k : Str) (l1 l2 : List (Str × β)) :
    (l1 ++ l2).lookup k = (l1.lookup k).or (l2.lookup k) := by
  induction l1 with
  | nil => rfl
  | cons p l ih =>
    obtain ⟨a, b⟩ := p
    show List.lookup k ((a, b) :: (l ++ l2)) =
      (List.lookup k ((a, b) :: l)).or (l2.lookup k)
    simp only [List.lookup]
    cases hba : k == a
    · exact ih
    · rfl

theorem lookup_flatMap_group {β : Type} (k : Str) (f : ℕ → List (Str × β))
    (D : List ℕ) (hnd : D.Nodup) (q₀ : ℕ) (hmem : q₀ ∈ D)
    (hother : ∀ q ∈ D, q ≠ q₀ → ∀ p ∈ f q, p.1 ≠ k) :
    (D.flatMap f).lookup k = (f q₀).lookup k := by
  induction D with
  | nil => exact absurd hmem (List.not_mem_nil q₀)
  | cons q D ih =>
    rw [List.flatMap_cons, lookup_append_or]
    by_cases he : q = q₀
    · subst he
      have hD : q ∉ D := (List.nodup_cons.mp hnd).1
      have hnone : (D.flatMap f).lookup k = Option.none := by
        apply lookup_eq_none_of_forall
        intro p hp
        obtain ⟨q', hq', hpmem⟩ := List.mem_flatMap.mp hp
        exact hother q' (List.mem_cons_of_mem _ hq')
          (fun h => hD (h ▸ hq')) p hpmem
      rw [hnone]
      cases (f q).lookup k <;> rfl
    · have hnone : (f q).lookup k = Option.none :=
        lookup_eq_none_of_forall k _ (hother q (List.mem_cons_self q D) he)
      rw [hnone, Option.none_or]
      have hmem' : q₀ ∈ D := by
        rcases List.mem_cons.mp hmem with h | h
        · exact absurd h.symm he
        · exact h
      exact ih (List.nodup_cons.mp hnd).2 hmem'
        (fun q' hq' => hother q' (List.mem_cons_of_mem _ hq'))

theorem lookup_range_filterMap {β : Type} (G : ℕ → Str × β) (k : Str) :
    ∀ (n j : ℕ), j < n → (∀ i, i < n → ((G i).1 = k ↔ i = j)) →
    ((List.range n).filterMap (fun i =>
        if i = 0 then Option.none else Option.some (G i))).lookup k =
      (if j = 0 then Option.none else Option.some (G j).2) := by
  intro n
  induction n with
  | zero => intro j hj _; exact absurd hj (Nat.not_lt_zero j)
  | succ n ih =>
    intro j hj huniq
    rw [List.range_succ, List.filterMap_append, lookup_append_or]
    by_cases hjn : j = n
    · have hnj : n = j := hjn.symm
      subst hnj
      have h1 : ((List.range n).filterMap (fun i =>
          if i = 0 then Option.none else Option.some (G i))).lookup k =
          Option.none := by
        apply lookup_eq_none_of_forall
        intro p hp
        obtain ⟨i, hi, hpi⟩ := List.mem_filterMap.mp hp
        have hilt : i < n := List.mem_range.mp hi
        by_cases hi0 : i = 0
        · rw [if_pos hi0] at hpi
          exact absurd hpi (by simp)
        · rw [if_neg hi0] at hpi
          have hgp : G i = p := Option.some.inj hpi
          intro hk
          have : i = n := (huniq i (by omega)).mp (by rw [hgp]; exact hk)
          omega
      rw [h1, Option.none_or]
      by_cases hn0 : n = 0
      · subst hn0
        rfl
      · have h2 : List.filterMap (fun i =>
            if i = 0 then Option.none else Option.some (G i)) [n] = [G n] := by
          rw [List.filterMap_cons, if_neg hn0]
          rfl
        rw [h2, if_neg hn0]
        have hk : (k == (G n).1) = true := by
          rw [beq_iff_eq]
          exact ((huniq n (Nat.lt_succ_self n)).mpr rfl).symm
        show List.lookup k [((G n).1, (G n).2)] = Option.some (G n).2
        simp only [List.lookup]
        rw [hk]
    · have hjlt : j < n := by omega
      have h1 := ih j hjlt (fun i hi => huniq i (by omega))
      rw [h1]
      have hn0 : n ≠ 0 := by omega
      have h2 : List.filterMap (fun i =>
          if i = 0 then Option.none else Option.some (G i)) [n] = [G n] := by
        rw [List.filterMap_cons, if_neg hn0]
        rfl
      rw [h2]
      by_cases hj0 : j = 0
      · rw [if_pos hj0, Option.none_or]
        apply lookup_eq_none_of_forall
        intro p hp
        rw [List.mem_singleton.mp hp]
        intro hk
        exact hjn ((huniq n (Nat.lt_succ_self n)).mp hk).symm
      · rw [if_neg hj0]
        rfl

theorem quarterly_base_yoy_none (receipts : List Receipt) :
    ∀ e ∈ quarterly_base receipts, e.yoy_growth_rate = Option.none := by
  intro e he
  obtain ⟨x, _, hx⟩ := List.mem_map.mp he
  rw [← hx]

theorem quarterly_base_gen (receipts : List Receipt) :
    ∀ e ∈ quarterly_base receipts,
      e.quarter = quarterGen e.year e.quarter_number := by
  intro e he
  obtain ⟨x, hx, hxe⟩ := List.mem_map.mp he
  have hxk : x.1 ∈ (accumQuarterly receipts).map Prod.fst := by
    have : x ∈ accumQuarterly receipts :=
      (List.perm_insertionSort (fun u v : Str × ℚ × ℕ => u.1 ≤ v.1)
        (accumQuarterly receipts)).mem_iff.mp hx
    exact List.mem_map_of_mem Prod.fst this
  obtain ⟨x', hx', hx'1⟩ := List.mem_map.mp hxk
  obtain ⟨y, q, hyq⟩ := accumQuarterly_keys_shape receipts x' hx'
  have hkey : x.1 = quarterGen y q := by rw [← hx'1, hyq]
  rw [← hxe]
  show x.1 = quarterGen (parseQuarterKey x.1).1 (parseQuarterKey x.1).2
  rw [hkey, parseQuarterKey_gen]

theorem quarterly_base_keys_nodup (receipts : List Receipt) :
    ((quarterly_base receipts).map (fun e => e.quarter)).Nodup := by
  have h1 : (quarterly_base receipts).map (fun e => e.quarter) =
      (sortByKey (accumQuarterly receipts)).map Prod.fst := by
    unfold quarterly_base
    rw [List.map_map]
    rfl
  rw [h1]
  have h2 : (sortByKey (accumQuarterly receipts)).map Prod.fst |>.Perm
      ((accumQuarterly receipts).map Prod.fst) :=
    (List.perm_insertionSort _ _).map Prod.fst
  exact h2.nodup_iff.mpr (accumQuarterly_keys_nodup receipts)

theorem getD_eq_getElem_of_lt {α : Type} [Inhabited α] (l : List α) (i : ℕ)
    (h : i < l.length) : l.getD i default = l[i] := by
  rw [List.getD_eq_getElem?_getD, List.getElem?_eq_getElem h]
  rfl

/-- The per-quarter-number group `_add_yoy_growth` builds and sorts. -/
def yoyGroup (qdata : List QuarterPoint) (qn : ℕ) : List QuarterPoint :=
  (qdata.filter fun i => i.quarter_number = qn).insertionSort
    (fun x y => x.year ≤ y.year)

/-- The update entry the loop writes at position `i` of a sorted group. -/
def yoyG (group : List QuarterPoint) (i : ℕ) : Str × Option ℚ :=
  ((group.getD i default).quarter,
    if 0 < (group.getD (i - 1) default).total_amount then
      Option.some (pyRound (((group.getD i default).total_amount -
        (group.getD (i - 1) default).total_amount) /
        (group.getD (i - 1) default).total_amount * 100) 2)
    else Option.none)

theorem yoy_updates_eq (qdata : List QuarterPoint) :
    yoy_updates qdata =
      ((qdata.map (fun i => i.quarter_number)).dedup).flatMap fun qn =>
        (List.range (yoyGroup qdata qn).length).filterMap fun i =>
          if i = 0 then Option.none
          else Option.some (yoyG (yoyGroup qdata qn) i) := by
  unfold yoy_updates yoyGroup yoyG
  refine congrArg _ (funext fun qn => ?_)
  refine congrArg (fun f => List.filterMap f _) (funext fun i => ?_)
  by_cases hi : i = 0
  · simp only [if_pos hi]
  · simp only [if_neg hi]
    split <;> rfl

theorem mem_yoyGroup (qdata : List QuarterPoint) (qn : ℕ) (e : QuarterPoint) :
    e ∈ yoyGroup qdata qn ↔ e ∈ qdata ∧ e.quarter_number = qn := by
  unfold yoyGroup
  rw [List.mem_insertionSort, List.mem_filter]
  simp only [decide_eq_true_eq]

theorem pairwise_year_lt (l : List QuarterPoint) (qn : ℕ)
    (hs : l.Pairwise (fun x y : QuarterPoint => x.year ≤ y.year))
    (hq : l.Pairwise (fun a b : QuarterPoint => a.quarter ≠ b.quarter))
    (hgen : ∀ e ∈ l, e.quarter = quarterGen e.year e.quarter_number)
    (hqn : ∀ e ∈ l, e.quarter_number = qn) :
    l.Pairwise (fun a b : QuarterPoint => a.year < b.year) := by
  refine (hs.and hq).imp_of_mem ?_
  intro a b ha hb hab
  rcases Nat.lt_or_ge a.year b.year with h | h
  · exact h
  · exfalso
    apply hab.2
    have hy : a.year = b.year := Nat.le_antisymm hab.1 h
    rw [hgen a ha, hgen b hb, hy, hqn a ha, hqn b hb]

theorem yoyGroup_pairwise_quarter_ne (B : List QuarterPoint) (qn : ℕ)
    (HN : (B.map (fun e => e.quarter)).Nodup) :
    (yoyGroup B qn).Pairwise (fun a b : QuarterPoint => a.quarter ≠ b.quarter) := by
  have hPq : B.Pairwise (fun a b : QuarterPoint => a.quarter ≠ b.quarter) :=
    List.pairwise_map.mp HN
  have hq1 : (B.filter fun i => i.quarter_number = qn).Pairwise
      (fun a b : QuarterPoint => a.quarter ≠ b.quarter) :=
    hPq.sublist (List.filter_sublist B)
  unfold yoyGroup
  exact ((List.perm_insertionSort _ _).pairwise_iff
    (fun h => Ne.symm h)).mpr hq1

theorem yoyGroup_sorted (B : List QuarterPoint) (qn : ℕ) :
    (yoyGroup B qn).Pairwise (fun x y : QuarterPoint => x.year ≤ y.year) := by
  haveI : IsTotal QuarterPoint (fun x y => x.year ≤ y.year) :=
    ⟨fun a b => Nat.le_total a.year b.year⟩
  haveI : IsTrans QuarterPoint (fun x y => x.year ≤ y.year) :=
    ⟨fun _ _ _ h1 h2 => Nat.le_trans h1 h2⟩
  exact List.sorted_insertionSort _ _

theorem yoyGroup_pairwise_lt (B : List QuarterPoint) (qn : ℕ)
    (HN : (B.map (fun e => e.quarter)).Nodup)
    (HG : ∀ e ∈ B, e.quarter = quarterGen e.year e.quarter_number) :
    (yoyGroup B qn).Pairwise (fun a b : QuarterPoint => a.year < b.year) := by
  apply pairwise_year_lt _ qn (yoyGroup_sorted B qn)
    (yoyGroup_pairwise_quarter_ne B qn HN)
  · exact fun e he => HG e ((mem_yoyGroup B qn e).mp he).1
  · exact fun e he => ((mem_yoyGroup B qn e).mp he).2

theorem filter_lt_eq_take (grp : List QuarterPoint) (j : ℕ) (hj : j < grp.length)
    (hstrict : grp.Pairwise (fun a b : QuarterPoint => a.year < b.year)) :
    grp.filter (fun e => e.year < grp[j].year) = grp.take j := by
  have hdecomp : grp.take j ++ grp[j] :: grp.drop (j + 1) = grp := by
    rw [← List.drop_eq_getElem_cons hj, List.take_append_drop]
  have hgl := List.pairwise_iff_getElem.mp hstrict
  have h1 : grp.filter (fun e => e.year < grp[j].year) =
      (grp.take j ++ grp[j] :: grp.drop (j + 1)).filter
        (fun e => e.year < grp[j].year) :=
    congrArg _ hdecomp.symm
  rw [h1, List.filter_append, List.filter_cons]
  have h2 : ¬(grp[j].year < grp[j].year) := Nat.lt_irrefl _
  rw [if_neg (by simp)]
  have h3 : (grp.take j).filter (fun e => e.year < grp[j].year) =
      grp.take j := by
    apply List.filter_eq_self.mpr
    intro a ha
    obtain ⟨k, hk, hka⟩ := List.mem_iff_getElem.mp ha
    have hkj : k < j := by
      rw [List.length_take] at hk
      omega
    have hk2 : k < grp.length := by omega
    have hget : (grp.take j)[k] = grp[k] := List.getElem_take grp
    rw [← hka, hget]
    simpa using hgl k j hk2 hj hkj
  have h4 : (grp.drop (j + 1)).filter
      (fun e => e.year < grp[j].year) = [] := by
    apply List.filter_eq_nil_iff.mpr
    intro a ha
    obtain ⟨k, hk, hka⟩ := List.mem_iff_getElem.mp ha
    have hk2 : j + 1 + k < grp.length := by
      rw [List.length_drop] at hk
      omega
    have hget : (grp.drop (j + 1))[k] = grp[j + 1 + k] := List.getElem_drop grp
    have hlt : j < j + 1 + k := by omega
    have := hgl j (j + 1 + k) hj hk2 hlt
    rw [← hka, hget]
    simp only [decide_eq_true_eq]
    omega
  rw [h3, h4, List.append_nil]

theorem lookup_yoy_updates (B : List QuarterPoint)
    (HN : (B.map (fun e => e.quarter)).Nodup)
    (HG : ∀ e ∈ B, e.quarter = quarterGen e.year e.quarter_number)
    (item : QuarterPoint) (hmem : item ∈ B) :
    (yoy_updates B).lookup item.quarter = yoy_spec B item := by
  have hinj : ∀ x ∈ B, ∀ y ∈ B, x.quarter = y.quarter → x = y := by
    intro x hx y hy h
    exact List.inj_on_of_nodup_map HN hx hy h
  have hitem_grp : item ∈ yoyGroup B item.quarter_number :=
    (mem_yoyGroup B item.quarter_number item).mpr ⟨hmem, rfl⟩
  obtain ⟨j, hj, hjitem⟩ := List.mem_iff_getElem.mp hitem_grp
  have hstrict := yoyGroup_pairwise_lt B item.quarter_number HN HG
  have hqne := yoyGroup_pairwise_quarter_ne B item.quarter_number HN
  have hqgl := List.pairwise_iff_getElem.mp hqne
  have hother : ∀ q ∈ (B.map (fun i => i.quarter_number)).dedup,
      q ≠ item.quarter_number →
      ∀ p ∈ (List.range (yoyGroup B q).length).filterMap (fun i =>
        if i = 0 then Option.none else Option.some (yoyG (yoyGroup B q) i)),
      p.1 ≠ item.quarter := by
    intro q _ hne p hp hkey
    obtain ⟨i, hir, hpi⟩ := List.mem_filterMap.mp hp
    by_cases hi0 : i = 0
    · rw [if_pos hi0] at hpi
      exact absurd hpi (by simp)
    · rw [if_neg hi0] at hpi
      have hpg : yoyG (yoyGroup B q) i = p := Option.some.inj hpi
      have hilt : i < (yoyGroup B q).length := List.mem_range.mp hir
      have hfst : p.1 = (yoyGroup B q)[i].quarter := by
        rw [← hpg]
        show ((yoyGroup B q).getD i default).quarter = (yoyGroup B q)[i].quarter
        rw [getD_eq_getElem_of_lt _ i hilt]
      obtain ⟨hB, hqn⟩ := (mem_yoyGroup B q _).mp (List.getElem_mem hilt)
      have heq : (yoyGroup B q)[i] = item :=
        hinj _ hB _ hmem (by rw [← hfst, hkey])
      apply hne
      rw [← hqn, heq]
  rw [yoy_updates_eq]
  rw [lookup_flatMap_group item.quarter
      (fun q => (List.range (yoyGroup B q).length).filterMap fun i =>
        if i = 0 then Option.none else Option.some (yoyG (yoyGroup B q) i))
      ((B.map (fun i => i.quarter_number)).dedup)
      (List.nodup_dedup _) item.quarter_number
      (List.mem_dedup.mpr (List.mem_map_of_mem _ hmem)) hother]
  have huniq : ∀ i, i < (yoyGroup B item.quarter_number).length →
      ((yoyG (yoyGroup B item.quarter_number) i).1 = item.quarter ↔ i = j) := by
    intro i hi
    have hfst : (yoyG (yoyGroup B item.quarter_number) i).1 =
        (yoyGroup B item.quarter_number)[i].quarter := by
      show ((yoyGroup B item.quarter_number).getD i default).quarter = _
      rw [getD_eq_getElem_of_lt _ i hi]
    constructor
    · intro hk
      rw [hfst] at hk
      have hk' : (yoyGroup B item.quarter_number)[i].quarter =
          (yoyGroup B item.quarter_number)[j].quarter := by
        rw [hjitem]
        exact hk
      by_contra hne
      rcases Nat.lt_or_ge i j with h | h
      · exact hqgl i j hi hj h hk'
      · have hji : j < i := by omega
        exact hqgl j i hj hi hji hk'.symm
    · intro h
      subst h
      rw [hfst, hjitem]
  rw [lookup_range_filterMap (yoyG (yoyGroup B item.quarter_number))
    item.quarter (yoyGroup B item.quarter_number).length j hj huniq]
  have hlist : (B.filter fun e =>
      e.quarter_number = item.quarter_number ∧ e.year < item.year).insertionSort
      (fun x y => x.year ≤ y.year) = (yoyGroup B item.quarter_number).take j := by
    haveI : IsAntisymm QuarterPoint (fun a b => a.year < b.year) :=
      ⟨fun a b h1 h2 => absurd h2 (Nat.lt_asymm h1)⟩
    haveI : IsTotal QuarterPoint (fun x y => x.year ≤ y.year) :=
      ⟨fun a b => Nat.le_total a.year b.year⟩
    haveI : IsTrans QuarterPoint (fun x y => x.year ≤ y.year) :=
      ⟨fun _ _ _ h1 h2 => Nat.le_trans h1 h2⟩
    have hp1 : ((B.filter fun e =>
        e.quarter_number = item.quarter_number ∧ e.year < item.year).insertionSort
        (fun x y => x.year ≤ y.year)).Perm
        (B.filter fun e =>
          e.quarter_number = item.quarter_number ∧ e.year < item.year) :=
      List.perm_insertionSort _ _
    have hp2 : (B.filter fun e =>
        e.quarter_number = item.quarter_number ∧ e.year < item.year) =
        (B.filter fun i => i.quarter_number = item.quarter_number).filter
          (fun e => e.year < item.year) := by
      rw [List.filter_filter]
      apply List.filter_congr
      intro a _
      by_cases h1 : a.quarter_number = item.quarter_number <;>
        by_cases h2 : a.year < item.year <;> simp [h1, h2]
    have hp3 : ((B.filter fun i =>
        i.quarter_number = item.quarter_number).filter
          (fun e => e.year < item.year)).Perm
        ((yoyGroup B item.quarter_number).filter (fun e => e.year < item.year)) :=
      (List.perm_insertionSort _ _).symm.filter _
    have hp4 : (yoyGroup B item.quarter_number).filter
        (fun e => e.year < item.year) = (yoyGroup B item.quarter_number).take j := by
      have hft := filter_lt_eq_take (yoyGroup B item.quarter_number) j hj hstrict
      rw [hjitem] at hft
      exact hft
    have hp3' : (B.filter fun e =>
        e.quarter_number = item.quarter_number ∧ e.year < item.year).Perm
        ((yoyGroup B item.quarter_number).filter (fun e => e.year < item.year)) := by
      rw [hp2]
      exact hp3
    have hperm2 := hp1.trans hp3'
    rw [hp4] at hperm2
    have hs2 : ((yoyGroup B item.quarter_number).take j).Pairwise
        (fun a b : QuarterPoint => a.year < b.year) :=
      List.Pairwise.sublist (List.take_sublist j _) hstrict
    have hs1 : ((B.filter fun e =>
        e.quarter_number = item.quarter_number ∧ e.year < item.year).insertionSort
        (fun x y => x.year ≤ y.year)).Pairwise
        (fun a b : QuarterPoint => a.year < b.year) := by
      apply pairwise_year_lt _ item.quarter_number
      · exact List.sorted_insertionSort _ _
      · have hPq : B.Pairwise (fun a b : QuarterPoint => a.quarter ≠ b.quarter) :=
          List.pairwise_map.mp HN
        exact ((List.perm_insertionSort _ _).pairwise_iff
          (fun h => Ne.symm h)).mpr (hPq.sublist (List.filter_sublist B))
      · intro e he
        have hem := (List.mem_insertionSort _).mp he
        exact HG e (List.mem_filter.mp hem).1
      · intro e he
        have hem := (List.mem_insertionSort _).mp he
        have hcond := (List.mem_filter.mp hem).2
        exact (of_decide_eq_true hcond).1
    exact List.eq_of_perm_of_sorted hperm2 hs1 hs2
  unfold yoy_spec prev_year_entry
  rw [hlist]
  by_cases hj0 : j = 0
  · subst hj0
    rw [if_pos rfl]
    rfl
  · rw [if_neg hj0]
    have hj1' : j - 1 < (yoyGroup B item.quarter_number).length := by omega
    have hlast : ((yoyGroup B item.quarter_number).take j).getLast? =
        Option.some ((yoyGroup B item.quarter_number)[j - 1]) := by
      rw [List.getLast?_eq_getElem?]
      have hlen : ((yoyGroup B item.quarter_number).take j).length = j := by
        rw [List.length_take]
        omega
      rw [hlen]
      have hj1 : j - 1 < ((yoyGroup B item.quarter_number).take j).length := by
        omega
      rw [List.getElem?_eq_getElem hj1]
      congr 1
      exact List.getElem_take _
    rw [hlast]
    have hgd1 : (yoyGroup B item.quarter_number).getD j default = item := by
      rw [getD_eq_getElem_of_lt _ j hj, hjitem]
    have hgd2 : (yoyGroup B item.quarter_number).getD (j - 1) default =
        (yoyGroup B item.quarter_number)[j - 1] :=
      getD_eq_getElem_of_lt _ _ hj1'
    show Option.some (yoyG (yoyGroup B item.quarter_number) j).2 = _
    unfold yoyG
    rw [hgd1, hgd2]
    dsimp only
    split <;> rfl

/-- **C5** (amended).  Every entry of `quarterly_analysis` carries as its
year-over-year growth rate exactly the value computed against the
**previous available year** with data for the same quarter number — the
greatest strictly earlier year, which need not be the prior calendar
year: the key is absent when no earlier year has data for that quarter
number, explicitly `None` when the previous available year's total is
not positive (so no division is ever performed on a non-positive total,
and no divide-by-zero can occur), and otherwise the rounded growth
formula `(current − previous) / previous × 100` against the previous
available year's total. -/
theorem quarterly_yoy_uses_nearest_available_year (receipts : List Receipt) :
    quarterly_analysis receipts =
      (quarterly_base receipts).map (fun item =>
        { item with yoy_growth_rate := yoy_spec (quarterly_base receipts) item }) := by
  by_cases hemp : receipts = []
  · subst hemp
    rfl
  · unfold quarterly_analysis
    rw [if_neg hemp]
    unfold add_yoy_growth
    apply List.map_congr_left
    intro item hmem
    rw [lookup_yoy_updates (quarterly_base receipts)
      (quarterly_base_keys_nodup receipts) (quarterly_base_gen receipts)
      item hmem]
    have hy := quarterly_base_yoy_none receipts item hmem
    rcases hspec : yoy_spec (quarterly_base receipts) item with _ | g
    · dsimp only
      conv_rhs => rw [← hy]
    · rfl

end YoyProofs


end ReceiptApp
